import Mathlib

/-!
# Verification of the fsmlib finite-automata engine

This file gives a shallow embedding of the core of the `fsmlib` repository
(`fsmlib/automata/state.py`, `fsmlib/automata/acceptors.py`,
`fsmlib/automata/transducers.py`) and proves or refutes the specified
properties of the nondeterministic/deterministic acceptors, the subset
construction (`nfa_to_dfa`), the completion (`complete_dfa`), and the
Mealy persistence protocol.

Modelling conventions:
* Python state objects are identified by their `name` string (the spec's data
  model declares names unique within a graph, and every set/dict in the code
  keys states by name-driven hashing).
* Python `set`s of states are modelled as duplicate-free lists of names sorted
  by the code-point lexicographic order (the observable uses of these sets —
  `sorted`, `any`, emptiness, union — are order-independent, so fixing the
  iteration order is faithful).
* Recursions of the Python code that are not structurally terminating
  (`NFA._accept`, `nfa_eclosure`, the worklist loop of `nfa_to_dfa`) are given
  an explicit fuel parameter; `none` means the recursion at that depth has not
  finished, so `∀ fuel, ... = none` states that the Python recursion never
  terminates, while `some r` for a concrete fuel states that Python returns `r`.
* Exceptions (`KeyError` on a deterministic transition lookup) are modelled by
  `Option`.
-/

set_option maxHeartbeats 1600000

namespace FsmLib

/-! ## Lexicographic order on strings

Python sorts state names with `sorted`, i.e. by code points.  Lean's built-in
`String` order does not reduce in the kernel, so we use our own code-point
lexicographic comparison on the underlying character lists. -/

/-- Lexicographic strict order on character lists, by code point. -/
def chLt : List Char → List Char → Bool
  | [], [] => false
  | [], _ :: _ => true
  | _ :: _, [] => false
  | a :: as, b :: bs => if a < b then true else if b < a then false else chLt as bs

/-- Code-point lexicographic strict order on strings (what Python `sorted` uses). -/
def strLt (a b : String) : Bool := chLt a.data b.data

/-! ## Canonical sets of state names

A Python `set` of states is modelled as a `strLt`-sorted, duplicate-free list
of state names. -/

/-- Canonicity: the list is strictly sorted by `strLt` (hence duplicate-free). -/
abbrev NCanon (l : List String) : Prop := List.Pairwise (fun a b => strLt a b = true) l

/-- Ordered insertion of a name into a canonical list (Python `set.add`). -/
def sinsert (x : String) : List String → List String
  | [] => [x]
  | y :: ys => if strLt x y then x :: y :: ys else if strLt y x then y :: sinsert x ys else y :: ys

/-- Insert many names (Python `set.update` / repeated `set.add`). -/
def nsAddAll (acc : List String) (ts : List String) : List String :=
  ts.foldl (fun a t => sinsert t a) acc

/-- The canonical set of the elements of an arbitrary list. -/
def nsOfList (l : List String) : List String := nsAddAll [] l

/-! ## The NFA model (`class NFA`, `class NFAState`)

An `NFAState` object is identified by its name; its `transitions` defaultdict
is modelled by the total function `trans` (a missing key reads as the empty
set, which is what `defaultdict(set)` returns).  The separate bookkeeping of
the key-set mutation that such a read performs is modelled in the `PyGraph`
section below. -/

structure NFAModel (α : Type) where
  /-- names of the states of the graph -/
  states : List String
  /-- the `accepting` flag of the state with a given name -/
  acc : String → Bool
  /-- `transitions[symbol]` of the state with a given name, as a set of names -/
  trans : String → α → List String
  /-- the `empty_char` of the acceptor -/
  emptyChar : α
  /-- name of the `initial` state -/
  initial : String
  alphabet : List α
  /-- name of the `current` state (the cursor) -/
  current : String

/-- `NFA.__init__`: sets `current = initial` and validates that the epsilon
symbol is not in the alphabet (otherwise `ValueError`, modelled as `none`). -/
def NFAModel.init {α : Type} [DecidableEq α] (states : List String) (acc : String → Bool)
    (trans : String → α → List String) (emptyChar : α) (initial : String)
    (alphabet : List α) : Option (NFAModel α) :=
  if emptyChar ∈ alphabet then none
  else some ⟨states, acc, trans, emptyChar, initial, alphabet, initial⟩

/-- One pass of `result = result or self._accept(...)` over a list of target
states.  Python `or` short-circuits: once `result` is `True` the recursive
call is not made at all. -/
def orFold (f : String → Option Bool) : List String → Bool → Option Bool
  | [], r => some r
  | t :: ts, r =>
      if r then orFold f ts true
      else
        match f t with
        | none => none
        | some b => orFold f ts b

/-- `NFA._accept(sequence, node)` with explicit recursion fuel.  Each Python
recursive call costs one unit of fuel; `none` means the recursion has not
finished within the given depth (so `∀ fuel, ... = none` is non-termination).
The first loop consumes the head symbol, the second follows epsilon moves
with the sequence unchanged — exactly the two loops of the source. -/
def nfaAcceptFuel {α : Type} (M : NFAModel α) : Nat → List α → String → Option Bool
  | 0 => fun _ _ => none
  | fuel + 1 => fun seq node =>
      match seq with
      | [] => some (M.acc node)
      | c :: rest =>
          match orFold (fun t => nfaAcceptFuel M fuel rest t) (M.trans node c) false with
          | none => none
          | some r₁ => orFold (fun t => nfaAcceptFuel M fuel (c :: rest) t)
              (M.trans node M.emptyChar) r₁

/-- `NFA.accept(sequence)`: starts the search at `self.initial` (not at the
cursor) and mutates nothing, so the machine comes back unchanged. -/
def NFAModel.acceptRun {α : Type} (M : NFAModel α) (fuel : Nat) (s : List α) :
    Option Bool × NFAModel α :=
  (nfaAcceptFuel M fuel s M.initial, M)

/-- A sequence of `accept` calls (each threading the machine state). -/
def NFAModel.acceptMany {α : Type} (M : NFAModel α) (fuel : Nat) : List (List α) → NFAModel α
  | [] => M
  | s :: ss => NFAModel.acceptMany (M.acceptRun fuel s).2 fuel ss

/-- The NFA of `claims C2/C3`: a single state `p` (not accepting) whose only
transition is an epsilon self-loop `p --ε--> p`; alphabet `[0]`, epsilon
symbol `9`. -/
def epsLoopNFA : NFAModel Nat where
  states := ["p"]
  acc := fun _ => false
  trans := fun n c => if n = "p" ∧ c = 9 then ["p"] else []
  emptyChar := 9
  initial := "p"
  alphabet := [0]
  current := "p"

/-! ## `nfa_eclosure`, `nfa_move`, and subset naming

`nfa_eclosure(nfa, sub)` starts from a copy of `sub` and, for every state of
`sub` and every epsilon-target `t`, adds `t` and the recursively computed
closure of `{t}`.  The recursion has no visited set, so it is fuelled. -/

/-- Inner loop of `nfa_eclosure`: `for target_state in state.transitions[empty_char]`.
`recur` is the recursive call at one unit less fuel. -/
def eclosInner (recur : List String → Option (List String)) :
    List String → List String → Option (List String)
  | [], acc => some acc
  | t :: ts, acc =>
      match recur [t] with
      | none => none
      | some e => eclosInner recur ts (nsAddAll (sinsert t acc) e)

/-- Outer loop of `nfa_eclosure`: `for state in sub`. -/
def eclosOuter {α : Type} (M : NFAModel α) (recur : List String → Option (List String)) :
    List String → List String → Option (List String)
  | [], acc => some acc
  | s :: rest, acc =>
      match eclosInner recur (M.trans s M.emptyChar) acc with
      | none => none
      | some acc₁ => eclosOuter M recur rest acc₁

/-- `nfa_eclosure(nfa, sub)` with recursion fuel. -/
def eclosureFuel {α : Type} (M : NFAModel α) : Nat → List String → Option (List String)
  | 0 => fun _ => none
  | f + 1 => fun sub => eclosOuter M (eclosureFuel M f) sub sub

/-- `nfa_move(sub, char)`: the set of `char`-successors of the states of `sub`. -/
def nfaMove {α : Type} (M : NFAModel α) (sub : List String) (c : α) : List String :=
  sub.foldl (fun acc n => nsAddAll acc (M.trans n c)) []

/-- `any([state.accepting for state in q])`. -/
def anyAcc {α : Type} (M : NFAModel α) (q : List String) : Bool := q.any M.acc

/-- `"+".join(sorted(state.name for state in q))` — `q` is already canonical
(sorted), so only the join remains. -/
def dfaSubName (q : List String) : String := String.intercalate "+" q

/-! ## The DFA model (`class DFA`, `class DFAState`)

A `DFAState` object is identified by its name.  The accepting flags of all
states are collected in the association list `accList`, and all the
per-state `transitions` dicts in the association list `transList` keyed by
(state name, symbol).  Both lists have unique keys whenever they model a
graph the code can build (a dict holds one value per key). -/

structure DFAModel (α : Type) where
  /-- `name ↦ accepting` for every state of the graph -/
  accList : List (String × Bool)
  /-- `(name, symbol) ↦ target name`: the union of all `transitions` dicts -/
  transList : List ((String × α) × String)
  /-- name of the `initial` state -/
  initial : String
  alphabet : List α
  /-- name of the `current` state (the cursor) -/
  current : String
  deriving DecidableEq

/-- First-match lookup in an association list keyed by state name. -/
def lookupAcc : List (String × Bool) → String → Option Bool
  | [], _ => none
  | (n, b) :: t, k => if n = k then some b else lookupAcc t k

/-- First-match lookup in the transition list keyed by (state name, symbol). -/
def lookupTr {α : Type} [DecidableEq α] :
    List ((String × α) × String) → String → α → Option String
  | [], _, _ => none
  | ((n, c), v) :: t, k, a => if n = k ∧ c = a then some v else lookupTr t k a

/-- `state.accepting` of the state named `n`. -/
def DFAModel.accOf {α : Type} (d : DFAModel α) (n : String) : Bool :=
  (lookupAcc d.accList n).getD false

/-- `state.transitions[char]` of the state named `n` (`none` = key absent). -/
def DFAModel.transOf {α : Type} [DecidableEq α] (d : DFAModel α) (n : String) (c : α) :
    Option String :=
  lookupTr d.transList n c

/-- `DFA._accept(sequence)`: walks from the cursor, rejecting (and resetting
the cursor to `initial`) on a missing symbol; on an exhausted sequence the
verdict is the accepting flag and the cursor is reset.  Returns
(result, final cursor). -/
def dfaAcceptAux {α : Type} [DecidableEq α] (d : DFAModel α) :
    List α → String → Bool × String
  | [], cur => (d.accOf cur, d.initial)
  | c :: rest, cur =>
      match d.transOf cur c with
      | none => (false, d.initial)
      | some nxt => dfaAcceptAux d rest nxt

/-- `DFA.accept(sequence)`: the walk starts at `self.current` (this is what
the source does — `_accept` reads `self.current`, and `accept` does not reset
it first). -/
def DFAModel.accept {α : Type} [DecidableEq α] (d : DFAModel α) (s : List α) :
    Bool × DFAModel α :=
  let p := dfaAcceptAux d s d.current
  (p.1, { d with current := p.2 })

/-- `DFA.process(x)`: `self.current = self.current.transition(x)`; a missing
key raises `KeyError`, modelled as `none`. -/
def DFAModel.process {α : Type} [DecidableEq α] (d : DFAModel α) (c : α) :
    Option (DFAModel α) :=
  (d.transOf d.current c).map (fun n => { d with current := n })

/-! ## `nfa_to_dfa`: the subset construction -/

/-- The mutable state of the worklist loop of `nfa_to_dfa`:
`new_states` (name ↦ accepting flag of the created `DFAState`), the
transitions recorded so far on the created states, and the `unmarked` stack of
(NFA subset, DFA state name) pairs (head = top of stack). -/
structure BuildSt (α : Type) where
  newStates : List (String × Bool)
  dfaTrans : List ((String × α) × String)
  unmarked : List (List String × String)
  deriving DecidableEq

/-- The body of `for symbol in nfa.alphabet` for one popped pair
`(nfa_states, dfa_state)`: compute `q = eclosure(move(...))`; skip it if
empty; create and enqueue a fresh `DFAState` if its name is new, else reuse;
record the transition. -/
def stepSymbols {α : Type} [DecidableEq α] (M : NFAModel α)
    (ecl : List String → Option (List String)) (dname : String) (q : List String) :
    List α → BuildSt α → Option (BuildSt α)
  | [], st => some st
  | c :: cs, st =>
      match ecl (nfaMove M q c) with
      | none => none
      | some qc =>
          if qc = [] then stepSymbols M ecl dname q cs st
          else
            let name := dfaSubName qc
            match lookupAcc st.newStates name with
            | some _ => stepSymbols M ecl dname q cs
                { st with dfaTrans := st.dfaTrans ++ [((dname, c), name)] }
            | none => stepSymbols M ecl dname q cs
                { newStates := st.newStates ++ [(name, anyAcc M qc)],
                  dfaTrans := st.dfaTrans ++ [((dname, c), name)],
                  unmarked := (qc, name) :: st.unmarked }

/-- The `while has_unmarked` loop, fuelled (each iteration pops one pair). -/
def buildLoop {α : Type} [DecidableEq α] (M : NFAModel α)
    (ecl : List String → Option (List String)) : Nat → BuildSt α → Option (BuildSt α)
  | 0 => fun st => match st.unmarked with
      | [] => some st
      | _ :: _ => none
  | fl + 1 => fun st =>
      match st.unmarked with
      | [] => some st
      | (q, dname) :: rest =>
          match stepSymbols M ecl dname q M.alphabet { st with unmarked := rest } with
          | none => none
          | some st₁ => buildLoop M ecl fl st₁

/-- `nfa_to_dfa(nfa)`: seeds the worklist with the epsilon closure of
`{nfa.initial}`, runs the loop, and wraps the result in a `DFA` whose cursor
starts at the subset state of the initial closure.  `fe` is recursion fuel
for each `nfa_eclosure` call, `fl` for the worklist loop. -/
def nfaToDfaFuel {α : Type} [DecidableEq α] (M : NFAModel α) (fe fl : Nat) :
    Option (DFAModel α) :=
  match eclosureFuel M fe [M.initial] with
  | none => none
  | some q₀ =>
      let n₀ := dfaSubName q₀
      match buildLoop M (eclosureFuel M fe) fl ⟨[(n₀, anyAcc M q₀)], [], [(q₀, n₀)]⟩ with
      | none => none
      | some stf => some ⟨stf.newStates, stf.dfaTrans, n₀, M.alphabet, n₀⟩

/-! ## Reachable states of a DFA (`DFA.states`) and completeness

`DFA.states` collects all states reachable from `initial` by a depth-first
traversal with a visited set; its observable value is the least set of names
containing `initial` and closed under recorded transitions.  We compute it as
the fixed point of a step function; since each step either reaches the fixed
point or grows the (duplicate-free) set, `transList.length + 1` iterations
always reach it. -/

/-- All targets recorded for the state named `n` (the values of its
`transitions` dict). -/
def succsOf {α : Type} (d : DFAModel α) (n : String) : List String :=
  d.transList.filterMap (fun e => if e.1.1 = n then some e.2 else none)

/-- Add the successors of every member of `S` to `S`. -/
def stepReach {α : Type} (d : DFAModel α) (S : List String) : List String :=
  S.foldl (fun acc n => nsAddAll acc (succsOf d n)) S

/-- Iterated expansion starting from `{initial}`. -/
def reachN {α : Type} (d : DFAModel α) : Nat → List String
  | 0 => [d.initial]
  | k + 1 => stepReach d (reachN d k)

/-- The reachable-state set of the DFA (the value of `DFA.states`, as a
canonical set of names). -/
def dfaReach {α : Type} (d : DFAModel α) : List String :=
  reachN d (d.transList.length + 1)

/-- `DFA.complete`: every reachable state has a transition for every alphabet
symbol (`set(alphabet).difference(state.transitions.keys()) == ∅`). -/
def DFAModel.completeB {α : Type} [DecidableEq α] (d : DFAModel α) : Bool :=
  (dfaReach d).all (fun n => d.alphabet.all (fun c => (d.transOf n c).isSome))

/-- The name of the sink state created by `complete_dfa` (`q` + apostrophe). -/
def sinkName : String := "q\x27"

/-- The self-loop transitions of the sink (`for symbol in alphabet:
q.transitions[symbol] = q`). -/
def sinkLoops {α : Type} (d : DFAModel α) : List ((String × α) × String) :=
  d.alphabet.map (fun c => ((sinkName, c), sinkName))

/-- The transitions added to the reachable states (`for state in states: for
symbol in set(alphabet).difference(keys): state.transitions[symbol] = q`). -/
def sinkAdds {α : Type} [DecidableEq α] (d : DFAModel α) : List ((String × α) × String) :=
  (dfaReach d).flatMap (fun n =>
    (d.alphabet.filter (fun c => (d.transOf n c).isNone)).map
      (fun c => ((n, c), sinkName)))

/-- The incomplete branch of `complete_dfa`: deep copy of `d` plus the sink
state and the added transitions. -/
def extDfa {α : Type} [DecidableEq α] (d : DFAModel α) : DFAModel α :=
  { accList := d.accList ++ [(sinkName, false)],
    transList := d.transList ++ sinkLoops d ++ sinkAdds d,
    initial := d.initial,
    alphabet := d.alphabet,
    current := d.current }

/-- `complete_dfa(dfa)`: if complete, return a deep copy (a pure value in the
model); otherwise deep-copy, create the sink with self-loops on every
alphabet symbol, then give every reachable state a transition to the sink for
every missing alphabet symbol. -/
def completeDfa {α : Type} [DecidableEq α] (d : DFAModel α) : DFAModel α :=
  if d.completeB then d else extDfa d

/-- All the names occurring in a DFA graph description. -/
def DFAModel.names {α : Type} (d : DFAModel α) : List String :=
  d.initial :: d.current ::
    (d.accList.map (·.1) ++ d.transList.map (fun e => e.1.1) ++ d.transList.map (·.2))

/-! ## Correctness of `complete_dfa`

The sink's name must be fresh: since the model identifies state objects by
name, an input graph already using the name `q'` would be conflated with the
new sink (the spec's data model requires names to be unique within a graph,
so this assumption is the spec's own well-formedness condition). -/

/-- The sink name does not occur anywhere in `d`. -/
structure SinkFresh {α : Type} (d : DFAModel α) : Prop where
  ini : d.initial ≠ sinkName
  cur : d.current ≠ sinkName
  acc : ∀ e ∈ d.accList, e.1 ≠ sinkName
  src : ∀ e ∈ d.transList, e.1.1 ≠ sinkName
  tgt : ∀ e ∈ d.transList, e.2 ≠ sinkName

/-! ## Cursor behaviour of `DFA.accept` -/

/-- Whether the walk from `n` hits a symbol that is missing from the
transition table of the state reached at that position. -/
def hitsMissing {α : Type} [DecidableEq α] (d : DFAModel α) : List α → String → Bool
  | [], _ => false
  | c :: rest, n =>
      match d.transOf n c with
      | none => true
      | some m => hitsMissing d rest m

/-- The `ab*ba` DFA of the repository tests (`test_simple_dfa`). -/
def abbaDfa : DFAModel String where
  accList := [("q0", false), ("q1", false), ("q2", false), ("q3", true)]
  transList := [(("q0", "a"), "q1"), (("q1", "b"), "q2"), (("q2", "b"), "q2"),
    (("q2", "a"), "q3")]
  initial := "q0"
  alphabet := ["a", "b"]
  current := "q0"

/-- An incomplete two-state DFA used as a concrete completion witness. -/
def incompleteDfa : DFAModel Nat where
  accList := [("s0", false), ("s1", true)]
  transList := [(("s0", 0), "s1")]
  initial := "s0"
  alphabet := [0, 1]
  current := "s0"

/-! ## Subset-construction correctness for epsilon-free NFAs

`NFA._accept` does not explore epsilon moves once the sequence is empty, so
determinization does *not* preserve the code's NFA language in general (see
the counterexample below).  For NFAs without epsilon transitions both sides
compute the classical NFA semantics, compared here through the total
reference function `nfaAcceptNoEps`. -/

/-- What `NFA._accept` computes on an epsilon-free NFA (a total function:
without epsilon moves the recursion is structural in the sequence). -/
def nfaAcceptNoEps {α : Type} (M : NFAModel α) : List α → String → Bool
  | [], n => M.acc n
  | c :: rest, n => (M.trans n c).any (fun t => nfaAcceptNoEps M rest t)

/-- Classical subset-semantics: the verdict of running a whole subset of NFA
states through the sequence (no epsilon moves). -/
def subsetAccept {α : Type} (M : NFAModel α) : List α → List String → Bool
  | [], q => anyAcc M q
  | c :: rest, q => subsetAccept M rest (nfaMove M q c)

/-- A well-formed nonempty canonical subset of the NFA's states. -/
def GoodU {α : Type} (M : NFAModel α) (q : List String) : Prop :=
  q ≠ [] ∧ NCanon q ∧ ∀ x ∈ q, x ∈ M.states

/-! ## Invariants of the `nfa_to_dfa` worklist loop (epsilon-free case) -/

/-- The names of the `DFAState`s created so far (keys of `new_states`). -/
def nsKeys {α : Type} (st : BuildSt α) : List String := st.newStates.map (·.1)

/-- The names sitting in the `unmarked` worklist. -/
def unmNames {α : Type} (st : BuildSt α) : List String := st.unmarked.map (·.2)

/-- The transition recorded for the subset-state of `q` on symbol `c` is
exactly what the loop body computes: none if the move is empty, else the
subset-state of the move (which has been created). -/
def TransSpec {α : Type} [DecidableEq α] (M : NFAModel α)
    (tr : List ((String × α) × String)) (ns : List (String × Bool))
    (q : List String) (c : α) : Prop :=
  (nfaMove M q c = [] → lookupTr tr (dfaSubName q) c = none) ∧
  (nfaMove M q c ≠ [] →
    lookupTr tr (dfaSubName q) c = some (dfaSubName (nfaMove M q c)) ∧
    dfaSubName (nfaMove M q c) ∈ ns.map (·.1))

/-- Everything the worklist loop maintains. -/
structure LoopInv {α : Type} [DecidableEq α] (M : NFAModel α) (st : BuildSt α) : Prop where
  keys_nodup : (nsKeys st).Nodup
  entry_ok : ∀ e ∈ st.newStates, ∃ q, GoodU M q ∧ e.1 = dfaSubName q ∧ e.2 = anyAcc M q
  unm_ok : ∀ p ∈ st.unmarked, GoodU M p.1 ∧ p.2 = dfaSubName p.1 ∧ p.2 ∈ nsKeys st
  unm_nodup : (unmNames st).Nodup
  tr_src : ∀ e ∈ st.dfaTrans, e.1.1 ∈ nsKeys st ∧ e.1.1 ∉ unmNames st
  done_ok : ∀ q, GoodU M q → dfaSubName q ∈ nsKeys st → dfaSubName q ∉ unmNames st →
      ∀ c ∈ M.alphabet, TransSpec M st.dfaTrans st.newStates q c

/-- What one full pass of the symbol loop guarantees. -/
structure StepOut {α : Type} [DecidableEq α] (M : NFAModel α) (q : List String)
    (cs : List α) (st st' : BuildSt α) : Prop where
  keys_nodup : (nsKeys st').Nodup
  entry_ok : ∀ e ∈ st'.newStates, ∃ q₂, GoodU M q₂ ∧ e.1 = dfaSubName q₂ ∧ e.2 = anyAcc M q₂
  unm_ok : ∀ p ∈ st'.unmarked, GoodU M p.1 ∧ p.2 = dfaSubName p.1 ∧ p.2 ∈ nsKeys st'
  unm_nodup : (unmNames st').Nodup
  tr_src : ∀ e ∈ st'.dfaTrans, e.1.1 ∈ nsKeys st' ∧ e.1.1 ∉ unmNames st'
  ns_grow : ∃ nsadd, st'.newStates = st.newStates ++ nsadd
  unm_grow : ∃ unmadd, st'.unmarked = unmadd ++ st.unmarked ∧
      ∀ p ∈ unmadd, p.2 ∉ nsKeys st
  tr_grow : ∃ tradd, st'.dfaTrans = st.dfaTrans ++ tradd ∧
      ∀ e ∈ tradd, e.1.1 = dfaSubName q ∧ e.1.2 ∈ cs
  new_unm : ∀ k ∈ nsKeys st', k ∉ nsKeys st → k ∈ unmNames st'
  tr_in : ∀ c ∈ cs, TransSpec M st'.dfaTrans st'.newStates q c

/-- Injectivity of the `+`-joined subset naming, in the decidable form used as
a hypothesis (quantified over sublists of the canonicalised state list). -/
def SubNameInj {α : Type} (M : NFAModel α) : Prop :=
  ∀ q ∈ (nsOfList M.states).sublists, ∀ q₂ ∈ (nsOfList M.states).sublists,
    q ≠ [] → q₂ ≠ [] → dfaSubName q = dfaSubName q₂ → q = q₂

instance {α : Type} (M : NFAModel α) : Decidable (SubNameInj M) := by
  unfold SubNameInj
  infer_instance

/-! ## Mealy machines and their persistence (`transducers.py`)

A Python output function is modelled as an `OutSpec`: its source text (what
`inspect.getsource` returns) paired with its behaviour.  `MealyMachine.load`
re-activates a serialized function with `exec(source)` — but `exec` returns
`None` in Python, so whatever it executes, the value bound to `output_fun` is
always `None`; `pyExecFun` models exactly that value. -/

structure OutSpec (α : Type) where
  src : String
  fn : α → String

/-- The value of the Python expression `exec(src)`: always `None` (`exec`
executes the text for its side effects and returns `None`; on the text that
`getsource` produces for these lambdas it would in fact raise `NameError`,
which also yields no function). -/
def pyExecFun {α : Type} (_src : String) : Option (OutSpec α) := none

/-- A Mealy machine: states `(name, initial, accepting)`, edges
`(from, symbol) ↦ (to, output_fun)`. -/
structure MealyModel (α : Type) where
  statesList : List (String × Bool × Bool)
  edges : List ((String × α) × (String × Option (OutSpec α)))
  alphabet : List α
  initial : String
  current : String

/-- The JSON object written by `MealyMachine.save`. -/
structure MealySaved (α : Type) where
  states : List (String × Bool × Bool)
  transitions : List (String × α × String × Option String)
  alphabet : List α
  current : String
  deriving DecidableEq

/-- `MealyMachine.save`: serializes the states (name and flags), the
transitions (with `getsource` of the output function), the alphabet and the
cursor name. -/
def mealySave {α : Type} (m : MealyModel α) : MealySaved α :=
  ⟨m.statesList,
   m.edges.map (fun e => (e.1.1, e.1.2, e.2.1, e.2.2.map OutSpec.src)),
   m.alphabet,
   m.current⟩

/-- First-match lookup of a Mealy edge. -/
def lookupEdge {α : Type} [DecidableEq α] :
    List ((String × α) × (String × Option (OutSpec α))) → String → α →
      Option (String × Option (OutSpec α))
  | [], _, _ => none
  | (k, v) :: t, n, c => if k.1 = n ∧ k.2 = c then some v else lookupEdge t n c

/-- `MealyMachine.load`: rebuild the states, pick the (last) `initial`-flagged
one, wire the transitions (`KeyError` on a missing endpoint name, modelled by
`none`), re-activate each output function with `exec(source)` — whose value is
always `None` — and reposition the cursor by name. -/
def mealyLoad {α : Type} [DecidableEq α] (sv : MealySaved α) : Option (MealyModel α) :=
  let names := sv.states.map (·.1)
  match (sv.states.filter (fun t => t.2.1)).getLast? with
  | none => none
  | some ini =>
      match sv.transitions.mapM (fun t =>
        if t.1 ∈ names ∧ t.2.2.1 ∈ names then
          some ((t.1, t.2.1),
            (t.2.2.1,
             match t.2.2.2 with
             | some src => pyExecFun (α := α) src
             | none => none))
        else none) with
      | none => none
      | some edges =>
          if sv.current ∈ names then
            some ⟨sv.states, edges, sv.alphabet, ini.1, sv.current⟩
          else none

/-- `MealyMachine.forward(symbol)`: step the cursor, return the edge's
computed output (`None` when no function is bound); `KeyError` (modelled
`none`) on a missing symbol. -/
def mealyForward {α : Type} [DecidableEq α] (m : MealyModel α) (c : α) :
    Option (Option String × MealyModel α) :=
  match lookupEdge m.edges m.current c with
  | none => none
  | some (tgt, of) => some (of.map (fun o => o.fn c), { m with current := tgt })

/-- The two-state Mealy machine of `test_transducers.py` (with `q0` flagged
initial so that restoration can find an initial state at all). -/
def mealyExample : MealyModel String where
  statesList := [("q0", true, false), ("q1", false, false)]
  edges :=
    [(("q0", "a"), ("q0", some ⟨"lambda x: Normal operation", fun _ => "Normal operation"⟩)),
     (("q0", "b"), ("q1", some ⟨"lambda x: Detected erroneous input",
        fun _ => "Detected erroneous input"⟩)),
     (("q1", "b"), ("q1", some ⟨"lambda x: Clearing erroneous input",
        fun _ => "Clearing erroneous input"⟩)),
     (("q1", "a"), ("q0", some ⟨"lambda x: Returning to normal operation",
        fun _ => "Returning to normal operation"⟩))]
  alphabet := ["a", "b"]
  initial := "q0"
  current := "q0"

/-- What `load(save(mealyExample))` actually produces: the same graph but with
every output function replaced by `None`. -/
def mealyExampleReloaded : MealyModel String where
  statesList := [("q0", true, false), ("q1", false, false)]
  edges :=
    [(("q0", "a"), ("q0", none)), (("q0", "b"), ("q1", none)),
     (("q1", "b"), ("q1", none)), (("q1", "a"), ("q0", none))]
  alphabet := ["a", "b"]
  initial := "q0"
  current := "q0"

/-! ## The mutation performed by `nfa_to_dfa` on its input

`NFAState.transitions` is a `defaultdict(set)`, and `nfa_move`/`nfa_eclosure`
read it with `state.transitions[char]`: reading a *missing* key inserts an
empty set into the dict.  To observe this we re-run the determinizer against a
stateful model in which each state's transitions dict is an explicit
insertion-ordered association list that is threaded through the computation. -/

/-- A Python dict `symbol ↦ set of target names` in insertion order. -/
abbrev PyDict (α : Type) := List (α × List String)

/-- The transitions dicts of all states, keyed by state name. -/
abbrev PyGraph (α : Type) := List (String × PyDict α)

/-- Plain dict lookup (`k in d` / `d[k]` without the default). -/
def dictGet {α : Type} [DecidableEq α] : PyDict α → α → Option (List String)
  | [], _ => none
  | (k, v) :: t, a => if k = a then some v else dictGet t a

/-- `defaultdict.__getitem__`: a missing key is inserted with the default
empty set (this is the mutation) and the empty set is returned. -/
def dictSetDefault {α : Type} [DecidableEq α] (d : PyDict α) (k : α) :
    PyDict α × List String :=
  match dictGet d k with
  | some v => (d, v)
  | none => (d ++ [(k, [])], [])

/-- `state.transitions[k]` on the state named `n`, returning the possibly
mutated graph together with the value. -/
def graphDD {α : Type} [DecidableEq α] : PyGraph α → String → α → PyGraph α × List String
  | [], _, _ => ([], [])
  | (m, dct) :: rest, n, k =>
      if m = n then
        ((m, (dictSetDefault dct k).1) :: rest, (dictSetDefault dct k).2)
      else
        ((m, dct) :: (graphDD rest n k).1, (graphDD rest n k).2)

/-- `nfa_move` against the stateful graph. -/
def nfaMoveSt {α : Type} [DecidableEq α] (g : PyGraph α) (sub : List String) (c : α) :
    PyGraph α × List String :=
  sub.foldl (fun p n =>
    ((graphDD p.1 n c).1, nsAddAll p.2 (graphDD p.1 n c).2)) (g, [])

/-- Inner loop of the stateful `nfa_eclosure`. -/
def eclosInnerSt {α : Type} [DecidableEq α]
    (recur : PyGraph α → List String → Option (PyGraph α × List String)) :
    List String → PyGraph α → List String → Option (PyGraph α × List String)
  | [], g, acc => some (g, acc)
  | t :: ts, g, acc =>
      match recur g [t] with
      | none => none
      | some (g₁, e) => eclosInnerSt recur ts g₁ (nsAddAll (sinsert t acc) e)

/-- Outer loop of the stateful `nfa_eclosure`. -/
def eclosOuterSt {α : Type} [DecidableEq α] (ec : α)
    (recur : PyGraph α → List String → Option (PyGraph α × List String)) :
    List String → PyGraph α → List String → Option (PyGraph α × List String)
  | [], g, acc => some (g, acc)
  | s :: rest, g, acc =>
      match eclosInnerSt recur (graphDD g s ec).2 (graphDD g s ec).1 acc with
      | none => none
      | some (g₁, acc₁) => eclosOuterSt ec recur rest g₁ acc₁

/-- `nfa_eclosure` against the stateful graph, with recursion fuel. -/
def eclosureFuelSt {α : Type} [DecidableEq α] (ec : α) :
    Nat → PyGraph α → List String → Option (PyGraph α × List String)
  | 0 => fun _ _ => none
  | f + 1 => fun g sub => eclosOuterSt ec (eclosureFuelSt ec f) sub g sub

/-- An NFA whose transition dicts live in a mutable `PyGraph`. -/
structure NFAStateful (α : Type) where
  graph : PyGraph α
  acc : String → Bool
  emptyChar : α
  initial : String
  alphabet : List α

/-- The symbol loop of `nfa_to_dfa` against the stateful graph. -/
def stepSymbolsSt {α : Type} [DecidableEq α]
    (ecl : PyGraph α → List String → Option (PyGraph α × List String))
    (N : NFAStateful α) (dname : String) (q : List String) :
    List α → PyGraph α → BuildSt α → Option (PyGraph α × BuildSt α)
  | [], g, st => some (g, st)
  | c :: cs, g, st =>
      match ecl (nfaMoveSt g q c).1 (nfaMoveSt g q c).2 with
      | none => none
      | some (g₁, qc) =>
          if qc = [] then stepSymbolsSt ecl N dname q cs g₁ st
          else
            match lookupAcc st.newStates (dfaSubName qc) with
            | some _ => stepSymbolsSt ecl N dname q cs g₁
                { st with dfaTrans := st.dfaTrans ++ [((dname, c), dfaSubName qc)] }
            | none => stepSymbolsSt ecl N dname q cs g₁
                { newStates := st.newStates ++ [(dfaSubName qc, qc.any N.acc)],
                  dfaTrans := st.dfaTrans ++ [((dname, c), dfaSubName qc)],
                  unmarked := (qc, dfaSubName qc) :: st.unmarked }

/-- The worklist loop of `nfa_to_dfa` against the stateful graph. -/
def buildLoopSt {α : Type} [DecidableEq α]
    (ecl : PyGraph α → List String → Option (PyGraph α × List String))
    (N : NFAStateful α) : Nat → PyGraph α → BuildSt α → Option (PyGraph α × BuildSt α)
  | 0 => fun g st =>
      match st.unmarked with
      | [] => some (g, st)
      | _ :: _ => none
  | fl + 1 => fun g st =>
      match st.unmarked with
      | [] => some (g, st)
      | (q, dname) :: rest =>
          match stepSymbolsSt ecl N dname q N.alphabet g { st with unmarked := rest } with
          | none => none
          | some (g₁, st₁) => buildLoopSt ecl N fl g₁ st₁

/-- `nfa_to_dfa` against the stateful graph: returns the built DFA together
with the final state of the input NFA's transition dicts. -/
def nfaToDfaSt {α : Type} [DecidableEq α] (N : NFAStateful α) (fe fl : Nat) :
    Option (DFAModel α × PyGraph α) :=
  match eclosureFuelSt N.emptyChar fe N.graph [N.initial] with
  | none => none
  | some (g₁, q₀) =>
      let n₀ := dfaSubName q₀
      match buildLoopSt (eclosureFuelSt N.emptyChar fe) N fl g₁
          ⟨[(n₀, q₀.any N.acc)], [], [(q₀, n₀)]⟩ with
      | none => none
      | some (g₂, stf) => some (⟨stf.newStates, stf.dfaTrans, n₀, N.alphabet, n₀⟩, g₂)

/-- The state names of a graph, in order. -/
def graphKeys {α : Type} (g : PyGraph α) : List String := g.map (·.1)

/-- First-match lookup of a state's dict. -/
def graphFind {α : Type} : PyGraph α → String → Option (PyDict α)
  | [], _ => none
  | (m, dct) :: rest, n => if m = n then some dct else graphFind rest n

/-- The observable value of `state.transitions[k]` (a missing state or key
reads as the empty set, which is how the code consumes the defaultdict). -/
def obsVal {α : Type} [DecidableEq α] (g : PyGraph α) (n : String) (k : α) : List String :=
  match graphFind g n with
  | none => []
  | some d => (dictGet d k).getD []

/-- Observational equivalence of two graphs: same states in the same order,
and the same transition sets for every state and symbol. -/
def ObsEq {α : Type} [DecidableEq α] (g g₁ : PyGraph α) : Prop :=
  graphKeys g₁ = graphKeys g ∧ ∀ n k, obsVal g₁ n k = obsVal g n k

/-- A small epsilon-free NFA in the stateful representation: `p --1--> q`,
alphabet `[0, 1]`, epsilon symbol `9`. -/
def statefulExample : NFAStateful Nat where
  graph := [("p", [(1, ["q"])]), ("q", [])]
  acc := fun n => decide (n = "q")
  emptyChar := 9
  initial := "p"
  alphabet := [0, 1]

/-! ## State equality and hashing (`class State` and its dataclass variants)

`State` is a `@dataclass` with an explicit `__hash__` returning
`hash(self.name)`; since the class defines `__hash__` itself, the dataclass
machinery keeps it.  The dataclass-generated `__eq__`, however, compares the
tuple of *all* fields `(name, transitions, initial, accepting)`.  A state
object is modelled by a snapshot of those fields (the transition table as a
symbol-to-target-names table, which covers every acyclic comparison the
counterexample needs). -/

structure PyStateSnap (α : Type) where
  name : String
  transitions : List (α × List String)
  initial : Bool
  accepting : Bool

/-- The dataclass-generated `__eq__`: field-tuple comparison. -/
def pyStateEq {α : Type} [DecidableEq α] (a b : PyStateSnap α) : Bool :=
  decide (a.name = b.name) && decide (a.transitions = b.transitions) &&
    decide (a.initial = b.initial) && decide (a.accepting = b.accepting)

/-- The explicit `__hash__`: `hash(self.name)` — a function of the name
alone (modelled by the name itself, standing for its hash). -/
def pyStateHashKey {α : Type} (a : PyStateSnap α) : String := a.name

/-- Two state objects with the same name but different `accepting` flags. -/
def snapA : PyStateSnap Nat := ⟨"a", [], false, true⟩

/-- Same name as `snapA`, different flag. -/
def snapB : PyStateSnap Nat := ⟨"a", [], false, false⟩

/-- The epsilon-to-accepting NFA of the C1 counterexample:
`p --ε--> q` with `q` accepting; alphabet `[0]`, epsilon symbol `9`. -/
def epsAccNFA : NFAModel Nat where
  states := ["p", "q"]
  acc := fun n => decide (n = "q")
  trans := fun n c => if c = 9 then (if n = "p" then ["q"] else []) else []
  emptyChar := 9
  initial := "p"
  alphabet := [0]
  current := "p"

/-- The NFA of `test_simple_nfa`: `p --0--> p`, `p --1--> {p,q}`, `q`
accepting; no epsilon transitions (epsilon symbol `9`). -/
def simpleNfa : NFAModel Nat where
  states := ["p", "q"]
  acc := fun n => decide (n = "q")
  trans := fun n c =>
    if c = 0 then (if n = "p" then ["p"] else [])
    else if c = 1 then (if n = "p" then ["p", "q"] else [])
    else []
  emptyChar := 9
  initial := "p"
  alphabet := [0, 1]
  current := "p"

/-- The DFA that `nfa_to_dfa` builds from `simpleNfa`. -/
def simpleDfa : DFAModel Nat :=
  ⟨[("p", false), ("p+q", true)],
   [(("p", 0), "p"), (("p", 1), "p+q"), (("p+q", 0), "p"), (("p+q", 1), "p+q")],
   "p", [0, 1], "p"⟩

/-- The state of `statefulExample.graph` after `nfa_to_dfa` has run: every
`defaultdict` read of a missing key has inserted an empty entry. -/
def statefulExampleMutated : PyGraph Nat :=
  [("p", [(1, ["q"]), (9, []), (0, [])]), ("q", [(9, []), (0, []), (1, [])])]

/-- The DFA built from `statefulExample`. -/
def statefulExampleDfa : DFAModel Nat :=
  ⟨[("p", false), ("q", true)], [(("p", 1), "q")], "p", [0, 1], "p"⟩

/-- The machine after `process("a")` on the `ab*ba` DFA. -/
def abbaAfterA : DFAModel String := { abbaDfa with current := "q1" }

/-- The acceptor produced by the `NFA` constructor in the C9 witness. -/
def initExample : NFAModel Nat := ⟨["p"], fun _ => false, fun _ _ => [], 9, "p", [0], "p"⟩

/-! ## Theorems -/

theorem chLt_cons_iff {a b : Char} {as bs : List Char} :
    chLt (a :: as) (b :: bs) = true ↔ a < b ∨ (a = b ∧ chLt as bs = true) := by
  rcases lt_trichotomy a b with h | h | h
  · simp [chLt, h]
  · subst h; simp [chLt, lt_irrefl]
  · simp only [chLt, if_neg (not_lt_of_lt h), if_pos h]
    constructor
    · intro hFalse; exact absurd hFalse (by simp)
    · rintro (hc | ⟨hc, _⟩)
      · exact absurd hc (not_lt_of_lt h)
      · subst hc; exact absurd h (lt_irrefl a)

theorem chLt_irrefl : ∀ l : List Char, chLt l l = false := by
  intro l
  induction l with
  | nil => rfl
  | cons a as ih => simp [chLt, ih]

theorem chLt_trans : ∀ {l₁ l₂ l₃ : List Char},
    chLt l₁ l₂ = true → chLt l₂ l₃ = true → chLt l₁ l₃ = true := by
  intro l₁
  induction l₁ with
  | nil =>
    intro l₂ l₃ h₁ h₂
    cases l₂ with
    | nil => exact absurd h₁ (by simp [chLt])
    | cons b bs =>
      cases l₃ with
      | nil => exact absurd h₂ (by simp [chLt])
      | cons c cs => simp [chLt]
  | cons a as ih =>
    intro l₂ l₃ h₁ h₂
    cases l₂ with
    | nil => exact absurd h₁ (by simp [chLt])
    | cons b bs =>
      cases l₃ with
      | nil => exact absurd h₂ (by simp [chLt])
      | cons c cs =>
        rw [chLt_cons_iff] at h₁ h₂ ⊢
        rcases h₁ with h₁ | ⟨h₁e, h₁r⟩
        · rcases h₂ with h₂ | ⟨h₂e, _⟩
          · exact Or.inl (lt_trans h₁ h₂)
          · exact Or.inl (h₂e ▸ h₁)
        · subst h₁e
          rcases h₂ with h₂ | ⟨h₂e, h₂r⟩
          · exact Or.inl h₂
          · exact Or.inr ⟨h₂e, ih h₁r h₂r⟩

theorem chLt_total_eq : ∀ {l₁ l₂ : List Char},
    chLt l₁ l₂ = false → chLt l₂ l₁ = false → l₁ = l₂ := by
  intro l₁
  induction l₁ with
  | nil =>
    intro l₂ h₁ _
    cases l₂ with
    | nil => rfl
    | cons b bs => exact absurd h₁ (by simp [chLt])
  | cons a as ih =>
    intro l₂ h₁ h₂
    cases l₂ with
    | nil => exact absurd h₂ (by simp [chLt])
    | cons b bs =>
      rw [Bool.eq_false_iff, Ne, chLt_cons_iff] at h₁ h₂
      push_neg at h₁ h₂
      rcases lt_trichotomy a b with hab | hab | hab
      · exact absurd hab (not_lt.mpr h₁.1)
      · subst hab
        have hr₁ : chLt as bs = false := by
          cases hcl : chLt as bs with
          | false => rfl
          | true => exact absurd hcl (h₁.2 rfl)
        have hr₂ : chLt bs as = false := by
          cases hcl : chLt bs as with
          | false => rfl
          | true => exact absurd hcl (h₂.2 rfl)
        exact congrArg (a :: ·) (ih hr₁ hr₂)
      · exact absurd hab (not_lt.mpr h₂.1)

theorem strLt_irrefl (a : String) : strLt a a = false := chLt_irrefl a.data

theorem strLt_trans {a b c : String} (h₁ : strLt a b = true) (h₂ : strLt b c = true) :
    strLt a c = true := chLt_trans h₁ h₂

theorem strLt_total_eq {a b : String} (h₁ : strLt a b = false) (h₂ : strLt b a = false) :
    a = b := by
  have hd : a.data = b.data := chLt_total_eq h₁ h₂
  cases a; cases b; simp_all

theorem strLt_asymm {a b : String} (h : strLt a b = true) : strLt b a = false := by
  by_contra hc
  have hba : strLt b a = true := by
    cases hba : strLt b a with
    | false => exact absurd hba hc
    | true => rfl
  have := strLt_trans h hba
  rw [strLt_irrefl] at this
  exact absurd this (by simp)

theorem ncanon_cons {a : String} {l : List String} :
    NCanon (a :: l) ↔ (∀ b ∈ l, strLt a b = true) ∧ NCanon l := List.pairwise_cons

theorem mem_sinsert {a x : String} : ∀ {l : List String},
    (a ∈ sinsert x l ↔ a = x ∨ a ∈ l) := by
  intro l
  induction l with
  | nil => simp [sinsert]
  | cons y ys ih =>
    by_cases h₁ : strLt x y
    · simp [sinsert, h₁]
    · by_cases h₂ : strLt y x
      · simp only [sinsert, if_neg h₁, if_pos h₂, List.mem_cons, ih]
        tauto
      · have hxy : x = y := by
          apply strLt_total_eq <;> simp_all
        subst hxy
        simp only [sinsert, if_neg h₁, if_neg h₂, List.mem_cons]
        tauto

theorem ncanon_sinsert {x : String} : ∀ {l : List String}, NCanon l → NCanon (sinsert x l) := by
  intro l
  induction l with
  | nil => intro _; simp [sinsert]
  | cons y ys ih =>
    intro h
    rw [ncanon_cons] at h
    obtain ⟨hy, hys⟩ := h
    by_cases h₁ : strLt x y
    · rw [sinsert, if_pos h₁, ncanon_cons]
      refine ⟨?_, ncanon_cons.mpr ⟨hy, hys⟩⟩
      intro b hb
      rcases List.mem_cons.mp hb with hb | hb
      · exact hb ▸ h₁
      · exact strLt_trans h₁ (hy b hb)
    · by_cases h₂ : strLt y x
      · rw [sinsert, if_neg h₁, if_pos h₂, ncanon_cons]
        refine ⟨?_, ih hys⟩
        intro b hb
        rcases mem_sinsert.mp hb with hb | hb
        · exact hb ▸ h₂
        · exact hy b hb
      · rw [sinsert, if_neg h₁, if_neg h₂, ncanon_cons]
        exact ⟨hy, hys⟩

theorem mem_nsAddAll {a : String} : ∀ {ts acc : List String},
    (a ∈ nsAddAll acc ts ↔ a ∈ acc ∨ a ∈ ts) := by
  intro ts
  induction ts with
  | nil => simp [nsAddAll]
  | cons t ts ih =>
    intro acc
    simp only [nsAddAll, List.foldl_cons] at ih ⊢
    rw [ih]
    simp [mem_sinsert]
    tauto

theorem ncanon_nsAddAll : ∀ {ts acc : List String}, NCanon acc → NCanon (nsAddAll acc ts) := by
  intro ts
  induction ts with
  | nil => intro acc h; exact h
  | cons t ts ih =>
    intro acc h
    simp only [nsAddAll, List.foldl_cons] at ih ⊢
    exact ih (ncanon_sinsert h)

theorem mem_nsOfList {a : String} {l : List String} : a ∈ nsOfList l ↔ a ∈ l := by
  rw [nsOfList, mem_nsAddAll]; simp

theorem ncanon_nsOfList {l : List String} : NCanon (nsOfList l) :=
  ncanon_nsAddAll (by simp)

/-- Two canonical lists with the same members are equal. -/
theorem ncanon_eq_of_mem_iff : ∀ {l₁ l₂ : List String}, NCanon l₁ → NCanon l₂ →
    (∀ a, a ∈ l₁ ↔ a ∈ l₂) → l₁ = l₂ := by
  intro l₁
  induction l₁ with
  | nil =>
    intro l₂ _ _ hm
    cases l₂ with
    | nil => rfl
    | cons b bs => exact absurd ((hm b).mpr (by simp)) (by simp)
  | cons a as ih =>
    intro l₂ h₁ h₂ hm
    cases l₂ with
    | nil => exact absurd ((hm a).mp (by simp)) (by simp)
    | cons b bs =>
      rw [ncanon_cons] at h₁ h₂
      obtain ⟨ha, has⟩ := h₁
      obtain ⟨hb, hbs⟩ := h₂
      have hab : a = b := by
        rcases List.mem_cons.mp ((hm a).mp (by simp)) with h | h
        · exact h
        · rcases List.mem_cons.mp ((hm b).mpr (by simp)) with h' | h'
          · exact h'.symm
          · exact absurd (strLt_trans (hb a h) (ha b h')) (by simp [strLt_irrefl])
      subst hab
      have : as = bs := by
        apply ih has hbs
        intro x
        constructor
        · intro hx
          rcases List.mem_cons.mp ((hm x).mp (List.mem_cons_of_mem a hx)) with h | h
          · exact absurd (h ▸ ha x hx) (by simp [strLt_irrefl])
          · exact h
        · intro hx
          rcases List.mem_cons.mp ((hm x).mpr (List.mem_cons_of_mem a hx)) with h | h
          · exact absurd (h ▸ hb x hx) (by simp [strLt_irrefl])
          · exact h
      rw [this]

theorem sinsert_length_le (x : String) : ∀ l : List String,
    (sinsert x l).length ≤ l.length + 1 := by
  intro l
  induction l with
  | nil => simp [sinsert]
  | cons y ys ih =>
      by_cases h₁ : strLt x y
      · simp [sinsert, h₁]
      · by_cases h₂ : strLt y x
        · simp only [sinsert, if_neg h₁, if_pos h₂, List.length_cons]
          omega
        · simp only [sinsert, if_neg h₁, if_neg h₂, List.length_cons]
          omega

theorem nsAddAll_length_le : ∀ ts acc : List String,
    (nsAddAll acc ts).length ≤ acc.length + ts.length := by
  intro ts
  induction ts with
  | nil => intro acc; simp [nsAddAll]
  | cons t ts ih =>
      intro acc
      simp only [nsAddAll, List.foldl_cons] at ih ⊢
      calc (List.foldl (fun a t => sinsert t a) (sinsert t acc) ts).length
          ≤ (sinsert t acc).length + ts.length := ih _
        _ ≤ acc.length + 1 + ts.length := by
            have := sinsert_length_le t acc
            omega
        _ = acc.length + (t :: ts).length := by simp; omega

theorem nsOfList_length_le (l : List String) : (nsOfList l).length ≤ l.length := by
  have := nsAddAll_length_le l []
  simpa [nsOfList] using this

/-- A canonical list whose members come from a canonical list `S` is a sublist of `S`. -/
theorem ncanon_sublist : ∀ {S l : List String}, NCanon S → NCanon l →
    (∀ a ∈ l, a ∈ S) → l.Sublist S := by
  intro S
  induction S with
  | nil =>
    intro l _ _ hsub
    cases l with
    | nil => exact List.Sublist.refl []
    | cons a as => exact absurd (hsub a (by simp)) (by simp)
  | cons y ys ih =>
    intro l hS hl hsub
    rw [ncanon_cons] at hS
    obtain ⟨hy, hS'⟩ := hS
    cases l with
    | nil => exact List.nil_sublist _
    | cons a as =>
      rw [ncanon_cons] at hl
      obtain ⟨ha, hl'⟩ := hl
      by_cases hay : a = y
      · subst hay
        apply List.Sublist.cons₂
        apply ih hS' hl'
        intro x hx
        rcases List.mem_cons.mp (hsub x (List.mem_cons_of_mem a hx)) with h | h
        · exact absurd (h ▸ ha x hx) (by simp [strLt_irrefl])
        · exact h
      · have hmem : a ∈ ys := by
          rcases List.mem_cons.mp (hsub a (by simp)) with h | h
          · exact absurd h hay
          · exact h
        apply List.Sublist.cons
        apply ih hS' (ncanon_cons.mpr ⟨ha, hl'⟩)
        intro x hx
        rcases List.mem_cons.mp (hsub x hx) with h | h
        · subst h
          have hya : strLt x a = true := hy a hmem
          rcases List.mem_cons.mp hx with h' | h'
          · exact absurd (h' ▸ hya) (by simp [strLt_irrefl])
          · exact absurd (strLt_trans hya (ha x h')) (by simp [strLt_irrefl])
        · exact h

theorem ncanon_nodup {l : List String} (h : NCanon l) : l.Nodup := by
  apply List.Pairwise.imp _ h
  intro a b hab
  intro hEq
  subst hEq
  simp [strLt_irrefl] at hab

theorem epsLoopNFA_accept_diverges : ∀ fuel, nfaAcceptFuel epsLoopNFA fuel [0] "p" = none := by
  intro fuel
  induction fuel with
  | zero => rfl
  | succ f ih =>
      show (match orFold (fun t => nfaAcceptFuel epsLoopNFA f [] t) (epsLoopNFA.trans "p" 0)
              false with
            | none => none
            | some r₁ => orFold (fun t => nfaAcceptFuel epsLoopNFA f [0] t)
                (epsLoopNFA.trans "p" epsLoopNFA.emptyChar) r₁) = none
      have h₁ : epsLoopNFA.trans "p" 0 = [] := by decide
      have h₂ : epsLoopNFA.trans "p" epsLoopNFA.emptyChar = ["p"] := by decide
      rw [h₁, h₂]
      show orFold (fun t => nfaAcceptFuel epsLoopNFA f [0] t) ["p"] false = none
      show (match nfaAcceptFuel epsLoopNFA f [0] "p" with
            | none => none
            | some b => orFold (fun t => nfaAcceptFuel epsLoopNFA f [0] t) [] b) = none
      rw [ih]

/-- On the epsilon self-loop NFA, `nfa_eclosure` never terminates: no amount of
recursion fuel reaches a result. -/
theorem epsLoopNFA_eclosure_diverges : ∀ fuel, eclosureFuel epsLoopNFA fuel ["p"] = none := by
  intro fuel
  induction fuel with
  | zero => rfl
  | succ f ih =>
      show eclosOuter epsLoopNFA (eclosureFuel epsLoopNFA f) ["p"] ["p"] = none
      have h₂ : epsLoopNFA.trans "p" epsLoopNFA.emptyChar = ["p"] := by decide
      show (match eclosInner (eclosureFuel epsLoopNFA f)
              (epsLoopNFA.trans "p" epsLoopNFA.emptyChar) ["p"] with
            | none => none
            | some acc₁ => eclosOuter epsLoopNFA (eclosureFuel epsLoopNFA f) [] acc₁) = none
      rw [h₂]
      show (match (match eclosureFuel epsLoopNFA f ["p"] with
                   | none => none
                   | some e => eclosInner (eclosureFuel epsLoopNFA f) []
                       (nsAddAll (sinsert "p" ["p"]) e)) with
            | none => none
            | some acc₁ => eclosOuter epsLoopNFA (eclosureFuel epsLoopNFA f) [] acc₁) = none
      rw [ih]

/-- In an NFA without epsilon transitions, one unit of fuel computes the
epsilon closure, and it is the identity. -/
theorem eclosureFuel_eps_free {α : Type} (M : NFAModel α)
    (Hε : ∀ n, M.trans n M.emptyChar = []) (f : Nat) (sub : List String) :
    eclosureFuel M (f + 1) sub = some sub := by
  show eclosOuter M (eclosureFuel M f) sub sub = some sub
  have : ∀ (l acc : List String), eclosOuter M (eclosureFuel M f) l acc = some acc := by
    intro l
    induction l with
    | nil => intro acc; rfl
    | cons s rest ih =>
        intro acc
        show (match eclosInner (eclosureFuel M f) (M.trans s M.emptyChar) acc with
              | none => none
              | some acc₁ => eclosOuter M (eclosureFuel M f) rest acc₁) = some acc
        rw [Hε s]
        exact ih acc
  exact this sub sub

/-- `nfa_to_dfa(nfa)` on the epsilon self-loop NFA diverges for every amount
of fuel: the very first `nfa_eclosure({initial})` call never terminates. -/
theorem epsLoopNFA_toDfa_diverges : ∀ fe fl, nfaToDfaFuel epsLoopNFA fe fl = none := by
  intro fe fl
  have h : eclosureFuel epsLoopNFA fe [epsLoopNFA.initial] = none :=
    epsLoopNFA_eclosure_diverges fe
  unfold nfaToDfaFuel
  rw [h]

/-! ## Generic facts about folded set insertion -/

theorem mem_foldl_nsAddAll {g : String → List String} {a : String} :
    ∀ (l acc : List String),
      (a ∈ l.foldl (fun acc n => nsAddAll acc (g n)) acc ↔ a ∈ acc ∨ ∃ n ∈ l, a ∈ g n) := by
  intro l
  induction l with
  | nil => simp
  | cons x xs ih =>
      intro acc
      rw [List.foldl_cons, ih]
      rw [mem_nsAddAll]
      constructor
      · rintro ((h | h) | ⟨n, hn, hg⟩)
        · exact Or.inl h
        · exact Or.inr ⟨x, by simp, h⟩
        · exact Or.inr ⟨n, by simp [hn], hg⟩
      · rintro (h | ⟨n, hn, hg⟩)
        · exact Or.inl (Or.inl h)
        · rcases List.mem_cons.mp hn with h' | h'
          · exact Or.inl (Or.inr (h' ▸ hg))
          · exact Or.inr ⟨n, h', hg⟩

theorem ncanon_foldl_nsAddAll {g : String → List String} :
    ∀ (l acc : List String), NCanon acc →
      NCanon (l.foldl (fun acc n => nsAddAll acc (g n)) acc) := by
  intro l
  induction l with
  | nil => intro acc h; exact h
  | cons x xs ih =>
      intro acc h
      rw [List.foldl_cons]
      exact ih _ (ncanon_nsAddAll h)

theorem mem_nfaMove {α : Type} {M : NFAModel α} {sub : List String} {c : α} {a : String} :
    a ∈ nfaMove M sub c ↔ ∃ n ∈ sub, a ∈ M.trans n c := by
  rw [nfaMove, mem_foldl_nsAddAll]
  simp

theorem ncanon_nfaMove {α : Type} {M : NFAModel α} {sub : List String} {c : α} :
    NCanon (nfaMove M sub c) :=
  ncanon_foldl_nsAddAll _ _ (by simp)

theorem ncanon_stepReach {α : Type} {d : DFAModel α} {S : List String} (h : NCanon S) :
    NCanon (stepReach d S) := ncanon_foldl_nsAddAll _ _ h

theorem mem_stepReach {α : Type} {d : DFAModel α} {S : List String} {a : String} :
    a ∈ stepReach d S ↔ a ∈ S ∨ ∃ n ∈ S, a ∈ succsOf d n := mem_foldl_nsAddAll _ _

theorem ncanon_reachN {α : Type} (d : DFAModel α) : ∀ k, NCanon (reachN d k) := by
  intro k
  induction k with
  | zero => simp [reachN]
  | succ k ih => exact ncanon_stepReach ih

theorem reachN_subset_succ {α : Type} (d : DFAModel α) (k : Nat) :
    ∀ a ∈ reachN d k, a ∈ reachN d (k + 1) := by
  intro a ha
  exact mem_stepReach.mpr (Or.inl ha)

theorem reachN_support {α : Type} (d : DFAModel α) :
    ∀ k, ∀ a ∈ reachN d k, a ∈ d.initial :: d.transList.map (·.2) := by
  intro k
  induction k with
  | zero => intro a ha; simp [reachN] at ha; simp [ha]
  | succ k ih =>
      intro a ha
      rcases mem_stepReach.mp ha with h | ⟨n, _, hg⟩
      · exact ih a h
      · rw [succsOf] at hg
        rcases List.mem_filterMap.mp hg with ⟨e, he, hev⟩
        by_cases hsrc : e.1.1 = n
        · rw [if_pos hsrc] at hev
          cases hev
          exact List.mem_cons_of_mem _ (List.mem_map.mpr ⟨e, he, rfl⟩)
        · rw [if_neg hsrc] at hev
          cases hev

theorem reachN_length_grow {α : Type} (d : DFAModel α) :
    ∀ i, (∀ j < i, reachN d (j + 1) ≠ reachN d j) → i + 1 ≤ (reachN d i).length := by
  intro i
  induction i with
  | zero => intro _; simp [reachN]
  | succ i ih =>
      intro h
      have h₁ : i + 1 ≤ (reachN d i).length := ih (fun j hj => h j (Nat.lt_succ_of_lt hj))
      have hsub : (reachN d i).Sublist (reachN d (i + 1)) :=
        ncanon_sublist (ncanon_reachN d (i + 1)) (ncanon_reachN d i)
          (reachN_subset_succ d i)
      have hne : reachN d (i + 1) ≠ reachN d i := h i (Nat.lt_succ_self i)
      have hlt : (reachN d i).length < (reachN d (i + 1)).length := by
        rcases Nat.lt_or_ge (reachN d i).length (reachN d (i + 1)).length with hc | hc
        · exact hc
        · exact absurd (hsub.eq_of_length
            (Nat.le_antisymm hsub.length_le hc)).symm hne
      omega

/-- `dfaReach` is a fixed point of the expansion step. -/
theorem stepReach_dfaReach {α : Type} (d : DFAModel α) :
    stepReach d (dfaReach d) = dfaReach d := by
  set N := d.transList.length + 1 with hN
  have hbound : ∀ i, (reachN d i).length ≤ N := by
    intro i
    have hsub : (reachN d i).Sublist (nsOfList (d.initial :: d.transList.map (·.2))) := by
      apply ncanon_sublist ncanon_nsOfList (ncanon_reachN d i)
      intro a ha
      exact mem_nsOfList.mpr (reachN_support d i a ha)
    calc (reachN d i).length ≤ (nsOfList (d.initial :: d.transList.map (·.2))).length :=
            hsub.length_le
      _ ≤ (d.initial :: d.transList.map (·.2)).length := nsOfList_length_le _
      _ = N := by simp [hN]
  have hfix : ∃ i, i < N ∧ reachN d (i + 1) = reachN d i := by
    by_contra hc
    push_neg at hc
    have : N + 1 ≤ (reachN d N).length := reachN_length_grow d N (fun j hj => hc j hj)
    have := hbound N
    omega
  rcases hfix with ⟨i, hiN, hi⟩
  have hstab : ∀ j, i ≤ j → reachN d j = reachN d i := by
    intro j
    induction j with
    | zero => intro h; cases Nat.le_zero.mp h; rfl
    | succ j ihj =>
        intro h
        rcases Nat.lt_or_ge i (j + 1) with h' | h'
        · have hij : i ≤ j := Nat.lt_succ_iff.mp h'
          show stepReach d (reachN d j) = reachN d i
          rw [ihj hij]
          exact hi
        · have hEq : i = j + 1 := Nat.le_antisymm h h'
          rw [hEq]
  show stepReach d (reachN d N) = reachN d N
  rw [hstab N (Nat.le_of_lt hiN)]
  exact hi

theorem reachN_mono {α : Type} (d : DFAModel α) {k k' : Nat} (h : k ≤ k') :
    ∀ a ∈ reachN d k, a ∈ reachN d k' := by
  induction k' with
  | zero => cases Nat.le_zero.mp h; exact fun a ha => ha
  | succ k' ih =>
      rcases Nat.lt_or_ge k (k' + 1) with h' | h'
      · intro a ha
        exact reachN_subset_succ d k' a (ih (Nat.lt_succ_iff.mp h') a ha)
      · have : k = k' + 1 := Nat.le_antisymm h h'
        rw [this]
        exact fun a ha => ha

theorem initial_mem_dfaReach {α : Type} (d : DFAModel α) : d.initial ∈ dfaReach d :=
  reachN_mono d (Nat.zero_le _) d.initial (by simp [reachN])

theorem dfaReach_closed {α : Type} {d : DFAModel α} {n m : String}
    (hn : n ∈ dfaReach d) (hm : m ∈ succsOf d n) : m ∈ dfaReach d := by
  have h := stepReach_dfaReach d
  rw [← h]
  exact mem_stepReach.mpr (Or.inr ⟨n, hn, hm⟩)

theorem dfaReach_min {α : Type} (d : DFAModel α) (P : String → Prop)
    (h0 : P d.initial) (hc : ∀ n m, P n → m ∈ succsOf d n → P m) :
    ∀ a ∈ dfaReach d, P a := by
  have : ∀ k, ∀ a ∈ reachN d k, P a := by
    intro k
    induction k with
    | zero => intro a ha; simp [reachN] at ha; exact ha ▸ h0
    | succ k ih =>
        intro a ha
        rcases mem_stepReach.mp ha with h | ⟨n, hn, hm⟩
        · exact ih a h
        · exact hc n a (ih n hn) hm
  exact this _

theorem ncanon_dfaReach {α : Type} (d : DFAModel α) : NCanon (dfaReach d) :=
  ncanon_reachN d _

/-! ## Association-list lookup lemmas -/

theorem lookupAcc_append (l₁ l₂ : List (String × Bool)) (k : String) :
    lookupAcc (l₁ ++ l₂) k =
      match lookupAcc l₁ k with
      | some b => some b
      | none => lookupAcc l₂ k := by
  induction l₁ with
  | nil => simp [lookupAcc]
  | cons e t ih =>
      obtain ⟨n, b⟩ := e
      by_cases h : n = k
      · simp [lookupAcc, h]
      · simp only [List.cons_append, lookupAcc, if_neg h]
        exact ih

theorem lookupTr_append {α : Type} [DecidableEq α]
    (l₁ l₂ : List ((String × α) × String)) (k : String) (a : α) :
    lookupTr (l₁ ++ l₂) k a =
      match lookupTr l₁ k a with
      | some v => some v
      | none => lookupTr l₂ k a := by
  induction l₁ with
  | nil => simp [lookupTr]
  | cons e t ih =>
      obtain ⟨⟨n, c⟩, v⟩ := e
      by_cases h : n = k ∧ c = a
      · simp [lookupTr, h]
      · simp only [List.cons_append, lookupTr, if_neg h]
        exact ih

theorem lookupAcc_eq_none {l : List (String × Bool)} {k : String}
    (h : ∀ e ∈ l, e.1 ≠ k) : lookupAcc l k = none := by
  induction l with
  | nil => rfl
  | cons e t ih =>
      obtain ⟨n, b⟩ := e
      have hn : n ≠ k := h (n, b) (by simp)
      simp only [lookupAcc, if_neg hn]
      exact ih (fun e he => h e (List.mem_cons_of_mem _ he))

theorem lookupTr_eq_none {α : Type} [DecidableEq α] {l : List ((String × α) × String)}
    {k : String} {a : α} (h : ∀ e ∈ l, ¬(e.1.1 = k ∧ e.1.2 = a)) :
    lookupTr l k a = none := by
  induction l with
  | nil => rfl
  | cons e t ih =>
      obtain ⟨⟨n, c⟩, v⟩ := e
      have hn : ¬(n = k ∧ c = a) := h ((n, c), v) (by simp)
      simp only [lookupTr, if_neg hn]
      exact ih (fun e he => h e (List.mem_cons_of_mem _ he))

theorem lookupAcc_mem {l : List (String × Bool)} {k : String} {b : Bool}
    (h : lookupAcc l k = some b) : (k, b) ∈ l := by
  induction l with
  | nil => exact absurd h (by simp [lookupAcc])
  | cons e t ih =>
      obtain ⟨n, b'⟩ := e
      by_cases hn : n = k
      · rw [lookupAcc, if_pos hn] at h
        cases h
        subst hn
        simp
      · rw [lookupAcc, if_neg hn] at h
        exact List.mem_cons_of_mem _ (ih h)

theorem lookupTr_mem {α : Type} [DecidableEq α] {l : List ((String × α) × String)}
    {k : String} {a : α} {v : String} (h : lookupTr l k a = some v) : ((k, a), v) ∈ l := by
  induction l with
  | nil => exact absurd h (by simp [lookupTr])
  | cons e t ih =>
      obtain ⟨⟨n, c⟩, v'⟩ := e
      by_cases hn : n = k ∧ c = a
      · rw [lookupTr, if_pos hn] at h
        cases h
        rw [hn.1, hn.2]
        simp
      · rw [lookupTr, if_neg hn] at h
        exact List.mem_cons_of_mem _ (ih h)

theorem lookupTr_some_of_key {α : Type} [DecidableEq α] {l : List ((String × α) × String)}
    {k : String} {a : α} {v : String} (hv : ∀ e ∈ l, e.2 = v)
    (hk : ∃ e ∈ l, e.1 = (k, a)) : lookupTr l k a = some v := by
  induction l with
  | nil => simp at hk
  | cons e t ih =>
      obtain ⟨⟨n, c⟩, v'⟩ := e
      by_cases hn : n = k ∧ c = a
      · rw [lookupTr, if_pos hn]
        have : v' = v := hv ((n, c), v') (by simp)
        rw [this]
      · rw [lookupTr, if_neg hn]
        apply ih (fun e he => hv e (List.mem_cons_of_mem _ he))
        rcases hk with ⟨e, he, hek⟩
        rcases List.mem_cons.mp he with h' | h'
        · rw [h'] at hek
          have : n = k ∧ c = a := by
            have := congrArg Prod.fst hek
            have h₂ := congrArg Prod.snd hek
            simp at this h₂
            exact ⟨this, h₂⟩
          exact absurd this hn
        · exact ⟨e, h', hek⟩

theorem transOf_mem_succsOf {α : Type} [DecidableEq α] {d : DFAModel α} {n m : String}
    {c : α} (h : d.transOf n c = some m) : m ∈ succsOf d n := by
  have hmem : ((n, c), m) ∈ d.transList := lookupTr_mem h
  rw [succsOf]
  exact List.mem_filterMap.mpr ⟨((n, c), m), hmem, by simp⟩

theorem sinkFresh_of_names {α : Type} {d : DFAModel α} (hf : sinkName ∉ d.names) :
    SinkFresh d := by
  rw [DFAModel.names] at hf
  simp only [List.mem_cons, List.mem_append, List.mem_map] at hf
  push_neg at hf
  obtain ⟨h₁, h₂, h₃⟩ := hf
  refine ⟨fun h => h₁ h.symm, fun h => h₂ h.symm, ?_, ?_, ?_⟩
  · intro e he hcontra
    exact h₃.1.1 e he hcontra
  · intro e he hcontra
    exact h₃.1.2 e he hcontra
  · intro e he hcontra
    exact h₃.2 e he hcontra

theorem SinkFresh.notReach {α : Type} {d : DFAModel α} (hf : SinkFresh d) :
    sinkName ∉ dfaReach d := by
  intro hmem
  have := reachN_support d _ _ hmem
  rcases List.mem_cons.mp this with h | h
  · exact hf.ini h.symm
  · rcases List.mem_map.mp h with ⟨e, he, hev⟩
    exact hf.tgt e he hev

theorem mem_sinkAdds {α : Type} [DecidableEq α] {d : DFAModel α}
    {e : (String × α) × String} :
    e ∈ sinkAdds d ↔ ∃ n ∈ dfaReach d, ∃ c ∈ d.alphabet,
      d.transOf n c = none ∧ e = ((n, c), sinkName) := by
  rw [sinkAdds]
  simp only [List.mem_flatMap, List.mem_map, List.mem_filter, Option.isNone_iff_eq_none]
  constructor
  · rintro ⟨n, hn, c, ⟨hc, hnone⟩, hev⟩
    exact ⟨n, hn, c, hc, hnone, hev.symm⟩
  · rintro ⟨n, hn, c, hc, hnone, hev⟩
    exact ⟨n, hn, c, ⟨hc, hnone⟩, hev.symm⟩

theorem extDfa_accOf {α : Type} [DecidableEq α] {d : DFAModel α} {n : String}
    (hn : n ≠ sinkName) : (extDfa d).accOf n = d.accOf n := by
  rw [DFAModel.accOf, DFAModel.accOf, extDfa]
  simp only
  rw [lookupAcc_append]
  cases h : lookupAcc d.accList n with
  | some b => rfl
  | none =>
      have hone : lookupAcc [(sinkName, false)] n = none := by
        show (if sinkName = n then some false else lookupAcc [] n) = none
        rw [if_neg (fun h => hn h.symm)]
        rfl
      rw [hone]

theorem extDfa_accOf_sink {α : Type} [DecidableEq α] {d : DFAModel α}
    (hf : SinkFresh d) : (extDfa d).accOf sinkName = false := by
  rw [DFAModel.accOf, extDfa]
  simp only
  rw [lookupAcc_append, lookupAcc_eq_none (fun e he h => hf.acc e he h)]
  simp [lookupAcc]

theorem extDfa_transOf_some {α : Type} [DecidableEq α] {d : DFAModel α} {n m : String}
    {c : α} (h : d.transOf n c = some m) : (extDfa d).transOf n c = some m := by
  rw [DFAModel.transOf, extDfa]
  simp only
  rw [lookupTr_append, lookupTr_append]
  rw [DFAModel.transOf] at h
  rw [h]

theorem extDfa_transOf_sink {α : Type} [DecidableEq α] {d : DFAModel α} (hf : SinkFresh d)
    (c : α) : (extDfa d).transOf sinkName c =
      if c ∈ d.alphabet then some sinkName else none := by
  rw [DFAModel.transOf, extDfa]
  simp only
  rw [lookupTr_append, lookupTr_append]
  rw [show lookupTr d.transList sinkName c = none from
    lookupTr_eq_none (fun e he hk => hf.src e he hk.1)]
  by_cases hc : c ∈ d.alphabet
  · rw [if_pos hc]
    rw [show lookupTr (sinkLoops d) sinkName c = some sinkName from
      lookupTr_some_of_key
        (by
          intro e he
          rcases List.mem_map.mp he with ⟨c', _, hev⟩
          rw [← hev])
        ⟨((sinkName, c), sinkName), List.mem_map.mpr ⟨c, hc, rfl⟩, rfl⟩]
  · rw [if_neg hc]
    rw [show lookupTr (sinkLoops d) sinkName c = none from
      lookupTr_eq_none (by
        intro e he hk
        rcases List.mem_map.mp he with ⟨c', hc', hev⟩
        rw [← hev] at hk
        exact hc (hk.2 ▸ hc'))]
    exact lookupTr_eq_none (by
      intro e he hk
      rcases mem_sinkAdds.mp he with ⟨n', hn', c', _, _, hev⟩
      rw [hev] at hk
      exact hf.notReach (hk.1 ▸ hn'))

theorem extDfa_transOf_missing_in {α : Type} [DecidableEq α] {d : DFAModel α} {n : String}
    {c : α} (hn : n ∈ dfaReach d) (hc : c ∈ d.alphabet) (h : d.transOf n c = none)
    (hf : SinkFresh d) : (extDfa d).transOf n c = some sinkName := by
  rw [DFAModel.transOf, extDfa]
  simp only
  rw [lookupTr_append, lookupTr_append]
  rw [DFAModel.transOf] at h
  rw [h]
  have hnsink : n ≠ sinkName := fun hEq => hf.notReach (hEq ▸ hn)
  rw [show lookupTr (sinkLoops d) n c = none from
    lookupTr_eq_none (by
      intro e he hk
      rcases List.mem_map.mp he with ⟨c', _, hev⟩
      rw [← hev] at hk
      exact hnsink hk.1.symm)]
  exact lookupTr_some_of_key
    (by
      intro e he
      rcases mem_sinkAdds.mp he with ⟨n', _, c', _, _, hev⟩
      rw [hev])
    ⟨((n, c), sinkName), mem_sinkAdds.mpr ⟨n, hn, c, hc, by rw [DFAModel.transOf]; exact h, rfl⟩, rfl⟩

theorem extDfa_transOf_missing_out {α : Type} [DecidableEq α] {d : DFAModel α} {n : String}
    {c : α} (hn : n ≠ sinkName) (hout : ¬(n ∈ dfaReach d ∧ c ∈ d.alphabet))
    (h : d.transOf n c = none) : (extDfa d).transOf n c = none := by
  rw [DFAModel.transOf, extDfa]
  simp only
  rw [lookupTr_append, lookupTr_append]
  rw [DFAModel.transOf] at h
  rw [h]
  rw [show lookupTr (sinkLoops d) n c = none from
    lookupTr_eq_none (by
      intro e he hk
      rcases List.mem_map.mp he with ⟨c', _, hev⟩
      rw [← hev] at hk
      exact hn hk.1.symm)]
  exact lookupTr_eq_none (by
    intro e he hk
    rcases mem_sinkAdds.mp he with ⟨n', hn', c', hc', hnone, hev⟩
    rw [hev] at hk
    obtain ⟨hk₁, hk₂⟩ := hk
    subst hk₁
    subst hk₂
    exact hout ⟨hn', hc'⟩)

/-- Once in the sink, the walk never accepts. -/
theorem extDfa_sink_walk {α : Type} [DecidableEq α] {d : DFAModel α} (hf : SinkFresh d) :
    ∀ s : List α, (dfaAcceptAux (extDfa d) s sinkName).1 = false := by
  intro s
  induction s with
  | nil => simpa [dfaAcceptAux] using extDfa_accOf_sink hf
  | cons c rest ih =>
      rw [dfaAcceptAux]
      rw [extDfa_transOf_sink hf c]
      by_cases hc : c ∈ d.alphabet
      · rw [if_pos hc]
        exact ih
      · rw [if_neg hc]

/-- The completed DFA computes the same verdict as `d` from any non-sink
state. -/
theorem extDfa_walk_sim {α : Type} [DecidableEq α] {d : DFAModel α} (hf : SinkFresh d) :
    ∀ (s : List α) (n : String), n ≠ sinkName →
      (dfaAcceptAux (extDfa d) s n).1 = (dfaAcceptAux d s n).1 := by
  intro s
  induction s with
  | nil =>
      intro n hn
      simpa [dfaAcceptAux] using congrArg id (extDfa_accOf hn)
  | cons c rest ih =>
      intro n hn
      rw [dfaAcceptAux, dfaAcceptAux]
      cases h : d.transOf n c with
      | some m =>
          rw [extDfa_transOf_some h]
          have hm : m ≠ sinkName := hf.tgt _ (lookupTr_mem h)
          exact ih m hm
      | none =>
          by_cases hin : n ∈ dfaReach d ∧ c ∈ d.alphabet
          · rw [extDfa_transOf_missing_in hin.1 hin.2 h hf]
            exact extDfa_sink_walk hf rest
          · rw [extDfa_transOf_missing_out hn hin h]

/-- Reachable states of the completed DFA are reachable states of `d` or the
sink. -/
theorem extDfa_reach {α : Type} [DecidableEq α] {d : DFAModel α} (hf : SinkFresh d) :
    ∀ a ∈ dfaReach (extDfa d), a ∈ dfaReach d ∨ a = sinkName := by
  apply dfaReach_min (extDfa d) (fun a => a ∈ dfaReach d ∨ a = sinkName)
  · exact Or.inl (initial_mem_dfaReach d)
  · intro n m hP hm
    rw [succsOf] at hm
    rcases List.mem_filterMap.mp hm with ⟨e, he, hev⟩
    by_cases hsrc : e.1.1 = n
    · rw [if_pos hsrc] at hev
      injection hev with hev
      subst hev
      rw [extDfa] at he
      simp only [List.append_assoc, List.mem_append] at he
      rcases he with he | he | he
      · rcases hP with hP | hP
        · exact Or.inl (dfaReach_closed hP (by
            rw [succsOf]
            exact List.mem_filterMap.mpr ⟨e, he, by rw [if_pos hsrc]⟩))
        · exact absurd (hP ▸ hsrc ▸ hf.src e he) (by simp)
      · rcases List.mem_map.mp he with ⟨c', _, hev'⟩
        exact Or.inr (by rw [← hev'])
      · rcases mem_sinkAdds.mp he with ⟨n', _, c', _, _, hev'⟩
        exact Or.inr (by rw [hev'])
    · rw [if_neg hsrc] at hev
      cases hev

/-- The completed DFA is complete. -/
theorem extDfa_completeB {α : Type} [DecidableEq α] {d : DFAModel α} (hf : SinkFresh d) :
    (extDfa d).completeB = true := by
  rw [DFAModel.completeB, List.all_eq_true]
  intro n hn
  rw [List.all_eq_true]
  intro c hc
  have hc' : c ∈ d.alphabet := by
    have : (extDfa d).alphabet = d.alphabet := rfl
    rw [← this]
    exact hc
  rcases extDfa_reach hf n hn with hmem | hmem
  · cases h : d.transOf n c with
    | some m => rw [extDfa_transOf_some h]; rfl
    | none => rw [extDfa_transOf_missing_in hmem hc' h hf]; rfl
  · subst hmem
    rw [extDfa_transOf_sink hf c, if_pos hc']
    rfl

/-- Every branch of `DFA._accept` resets the cursor to `initial`. -/
theorem dfaAcceptAux_cursor {α : Type} [DecidableEq α] (d : DFAModel α) :
    ∀ (s : List α) (n : String), (dfaAcceptAux d s n).2 = d.initial := by
  intro s
  induction s with
  | nil => intro n; rfl
  | cons c rest ih =>
      intro n
      rw [dfaAcceptAux]
      cases h : d.transOf n c with
      | none => rfl
      | some m => exact ih m

/-- If the walk hits a missing symbol, the verdict is `False`. -/
theorem dfaAcceptAux_missing_false {α : Type} [DecidableEq α] (d : DFAModel α) :
    ∀ (s : List α) (n : String), hitsMissing d s n = true →
      (dfaAcceptAux d s n).1 = false := by
  intro s
  induction s with
  | nil => intro n h; exact absurd h (by simp [hitsMissing])
  | cons c rest ih =>
      intro n h
      rw [hitsMissing] at h
      rw [dfaAcceptAux]
      cases hc : d.transOf n c with
      | none => rfl
      | some m =>
          rw [hc] at h
          exact ih m h

theorem orFold_true (f : String → Option Bool) : ∀ l, orFold f l true = some true := by
  intro l
  induction l with
  | nil => rfl
  | cons t ts ih => simpa [orFold] using ih

theorem orFold_of_all_some {f : String → Option Bool} {g : String → Bool} :
    ∀ {l : List String}, (∀ t ∈ l, f t = some (g t)) →
      ∀ r, orFold f l r = some (r || l.any g) := by
  intro l
  induction l with
  | nil => intro _ r; simp [orFold]
  | cons t ts ih =>
      intro h r
      cases r with
      | true => rw [orFold_true]; simp
      | false =>
          rw [orFold]
          simp only [if_neg (by simp : ¬(false = true))]
          rw [h t (by simp)]
          show orFold f ts (g t) = some (false || (t :: ts).any g)
          rw [ih (fun t' ht' => h t' (List.mem_cons_of_mem _ ht')) (g t)]
          simp

/-- With no epsilon transitions, `sequence.length + 1` recursion depth
suffices, and `NFA._accept` computes `nfaAcceptNoEps`. -/
theorem nfaAcceptFuel_eps_free {α : Type} {M : NFAModel α}
    (Hε : ∀ n, M.trans n M.emptyChar = []) :
    ∀ (s : List α) (f : Nat) (n : String), s.length < f →
      nfaAcceptFuel M f s n = some (nfaAcceptNoEps M s n) := by
  intro s
  induction s with
  | nil =>
      intro f n hf
      match f, hf with
      | f + 1, _ => rfl
  | cons c rest ih =>
      intro f n hf
      match f, hf with
      | f + 1, hf =>
          have hrest : rest.length < f := by
            simp only [List.length_cons] at hf
            omega
          show (match orFold (fun t => nfaAcceptFuel M f rest t) (M.trans n c) false with
                | none => none
                | some r₁ => orFold (fun t => nfaAcceptFuel M f (c :: rest) t)
                    (M.trans n M.emptyChar) r₁) = some (nfaAcceptNoEps M (c :: rest) n)
          rw [orFold_of_all_some (g := fun t => nfaAcceptNoEps M rest t)
            (fun t _ => ih f t hrest) false]
          rw [Hε n]
          simp [orFold, nfaAcceptNoEps]

theorem subsetAccept_nil_false {α : Type} (M : NFAModel α) :
    ∀ s : List α, subsetAccept M s [] = false := by
  intro s
  induction s with
  | nil => rfl
  | cons c rest ih =>
      show subsetAccept M rest (nfaMove M [] c) = false
      have : nfaMove M [] c = [] := rfl
      rw [this, ih]

theorem subsetAccept_spec {α : Type} (M : NFAModel α) :
    ∀ (s : List α) (q : List String),
      (subsetAccept M s q = true ↔ ∃ n ∈ q, nfaAcceptNoEps M s n = true) := by
  intro s
  induction s with
  | nil =>
      intro q
      show anyAcc M q = true ↔ _
      rw [anyAcc, List.any_eq_true]
      rfl
  | cons c rest ih =>
      intro q
      show subsetAccept M rest (nfaMove M q c) = true ↔ _
      rw [ih]
      constructor
      · rintro ⟨m, hm, hAcc⟩
        rcases mem_nfaMove.mp hm with ⟨n, hn, ht⟩
        refine ⟨n, hn, ?_⟩
        show (M.trans n c).any (fun t => nfaAcceptNoEps M rest t) = true
        rw [List.any_eq_true]
        exact ⟨m, ht, hAcc⟩
      · rintro ⟨n, hn, hAcc⟩
        have : (M.trans n c).any (fun t => nfaAcceptNoEps M rest t) = true := hAcc
        rw [List.any_eq_true] at this
        rcases this with ⟨m, hm, hAcc'⟩
        exact ⟨m, mem_nfaMove.mpr ⟨n, hn, hm⟩, hAcc'⟩

theorem subsetAccept_singleton {α : Type} (M : NFAModel α) (s : List α) (n : String) :
    subsetAccept M s [n] = nfaAcceptNoEps M s n := by
  cases h : nfaAcceptNoEps M s n with
  | true =>
      have : subsetAccept M s [n] = true := (subsetAccept_spec M s [n]).mpr ⟨n, by simp, h⟩
      rw [this]
  | false =>
      cases h' : subsetAccept M s [n] with
      | false => rfl
      | true =>
          rcases (subsetAccept_spec M s [n]).mp h' with ⟨m, hm, hAcc⟩
          have : m = n := by simpa using hm
          rw [this] at hAcc
          rw [hAcc] at h
          exact absurd h (by simp)

theorem lookupAcc_some_of_mem_keys {l : List (String × Bool)} {k : String}
    (h : k ∈ l.map (·.1)) : ∃ b, lookupAcc l k = some b := by
  induction l with
  | nil => simp at h
  | cons e t ih =>
      obtain ⟨n, b⟩ := e
      by_cases hn : n = k
      · exact ⟨b, by rw [lookupAcc, if_pos hn]⟩
      · rcases List.mem_map.mp h with ⟨e', he', hev⟩
        rcases List.mem_cons.mp he' with h' | h'
        · exact absurd (by rw [h'] at hev; exact hev) hn
        · rcases ih (List.mem_map.mpr ⟨e', h', hev⟩) with ⟨b', hb'⟩
          exact ⟨b', by rw [lookupAcc, if_neg hn]; exact hb'⟩

theorem lookupAcc_none_not_mem {l : List (String × Bool)} {k : String}
    (h : lookupAcc l k = none) : k ∉ l.map (·.1) := by
  intro hmem
  rcases lookupAcc_some_of_mem_keys hmem with ⟨b, hb⟩
  rw [h] at hb
  cases hb

theorem lookupAcc_of_mem_nodup {l : List (String × Bool)} {k : String} {b : Bool}
    (hmem : (k, b) ∈ l) (hnd : (l.map (·.1)).Nodup) : lookupAcc l k = some b := by
  induction l with
  | nil => simp at hmem
  | cons e t ih =>
      obtain ⟨n, b'⟩ := e
      rw [List.map_cons, List.nodup_cons] at hnd
      rcases List.mem_cons.mp hmem with h | h
      · injection h with h₁ h₂
        rw [lookupAcc, if_pos h₁.symm, h₂]
      · by_cases hn : n = k
        · exfalso
          apply hnd.1
          rw [hn]
          exact List.mem_map.mpr ⟨(k, b), h, rfl⟩
        · rw [lookupAcc, if_neg hn]
          exact ih h hnd.2

theorem TransSpec_extend {α : Type} [DecidableEq α] {M : NFAModel α}
    {tr tradd : List ((String × α) × String)} {ns ns₂ : List (String × Bool)}
    {q : List String} {c : α} (h : TransSpec M tr ns q c)
    (hadd : ∀ e ∈ tradd, ¬(e.1.1 = dfaSubName q ∧ e.1.2 = c))
    (hns : ∀ k ∈ ns.map (·.1), k ∈ ns₂.map (·.1)) :
    TransSpec M (tr ++ tradd) ns₂ q c := by
  constructor
  · intro hmv
    rw [lookupTr_append, h.1 hmv]
    exact lookupTr_eq_none hadd
  · intro hmv
    obtain ⟨h₁, h₂⟩ := h.2 hmv
    constructor
    · rw [lookupTr_append, h₁]
    · exact hns _ h₂

theorem TransSpec_new {α : Type} [DecidableEq α] {M : NFAModel α}
    {tr : List ((String × α) × String)} {ns₂ : List (String × Bool)}
    {q : List String} {c : α}
    (hnone : lookupTr tr (dfaSubName q) c = none) (hmv : nfaMove M q c ≠ [])
    (hkey : dfaSubName (nfaMove M q c) ∈ ns₂.map (·.1)) :
    TransSpec M (tr ++ [((dfaSubName q, c), dfaSubName (nfaMove M q c))]) ns₂ q c := by
  constructor
  · intro h; exact absurd h hmv
  · intro _
    refine ⟨?_, hkey⟩
    rw [lookupTr_append, hnone]
    show (if dfaSubName q = dfaSubName q ∧ c = c then
        some (dfaSubName (nfaMove M q c)) else lookupTr [] (dfaSubName q) c) = _
    rw [if_pos ⟨rfl, rfl⟩]

theorem TransSpec_empty {α : Type} [DecidableEq α] {M : NFAModel α}
    {tr : List ((String × α) × String)} {ns : List (String × Bool)}
    {q : List String} {c : α} (hmv : nfaMove M q c = [])
    (hnone : lookupTr tr (dfaSubName q) c = none) : TransSpec M tr ns q c := by
  constructor
  · intro _; exact hnone
  · intro h; exact absurd hmv h

theorem lookupAcc_some_mem_keys {l : List (String × Bool)} {k : String} {b : Bool}
    (h : lookupAcc l k = some b) : k ∈ l.map (·.1) :=
  List.mem_map.mpr ⟨(k, b), lookupAcc_mem h, rfl⟩

theorem goodU_nfaMove {α : Type} {M : NFAModel α}
    (Htr : ∀ n c t, t ∈ M.trans n c → t ∈ M.states) {q : List String} {c : α}
    (hmv : nfaMove M q c ≠ []) : GoodU M (nfaMove M q c) := by
  refine ⟨hmv, ncanon_nfaMove, ?_⟩
  intro x hx
  rcases mem_nfaMove.mp hx with ⟨n, _, ht⟩
  exact Htr n c x ht

/-- One pass of the symbol loop: it succeeds (epsilon-free NFAs make every
closure call return), preserves the structural invariants, only appends, and
establishes the transition spec of `q` for every processed symbol. -/
theorem stepSymbols_spec {α : Type} [DecidableEq α] {M : NFAModel α} (fe : Nat)
    (Hε : ∀ n, M.trans n M.emptyChar = [])
    (Htr : ∀ n c t, t ∈ M.trans n c → t ∈ M.states) :
    ∀ cs : List α, cs.Nodup → ∀ (st : BuildSt α) (q : List String),
      GoodU M q →
      (nsKeys st).Nodup →
      (∀ e ∈ st.newStates, ∃ q₂, GoodU M q₂ ∧ e.1 = dfaSubName q₂ ∧ e.2 = anyAcc M q₂) →
      (∀ p ∈ st.unmarked, GoodU M p.1 ∧ p.2 = dfaSubName p.1 ∧ p.2 ∈ nsKeys st) →
      (unmNames st).Nodup →
      (∀ e ∈ st.dfaTrans, e.1.1 ∈ nsKeys st ∧ e.1.1 ∉ unmNames st) →
      dfaSubName q ∈ nsKeys st →
      dfaSubName q ∉ unmNames st →
      (∀ c ∈ cs, lookupTr st.dfaTrans (dfaSubName q) c = none) →
      ∃ st', stepSymbols M (eclosureFuel M (fe + 1)) (dfaSubName q) q cs st = some st' ∧
        StepOut M q cs st st' := by
  intro cs
  induction cs with
  | nil =>
      intro _ st q _ hkn he hu hun hts _ _ _
      refine ⟨st, rfl, ?_⟩
      exact { keys_nodup := hkn, entry_ok := he, unm_ok := hu, unm_nodup := hun,
              tr_src := hts,
              ns_grow := ⟨[], by simp⟩,
              unm_grow := ⟨[], by simp, by simp⟩,
              tr_grow := ⟨[], by simp, by simp⟩,
              new_unm := fun k hk hnk => absurd hk hnk,
              tr_in := by simp }
  | cons c cs ih =>
      intro hnd st q hq hkn he hu hun hts hkey hnotunm hfr
      rw [List.nodup_cons] at hnd
      obtain ⟨hcnotin, hndtail⟩ := hnd
      have hrun : stepSymbols M (eclosureFuel M (fe + 1)) (dfaSubName q) q (c :: cs) st =
          (if nfaMove M q c = [] then
            stepSymbols M (eclosureFuel M (fe + 1)) (dfaSubName q) q cs st
          else
            match lookupAcc st.newStates (dfaSubName (nfaMove M q c)) with
            | some _ => stepSymbols M (eclosureFuel M (fe + 1)) (dfaSubName q) q cs
                { st with dfaTrans :=
                    st.dfaTrans ++ [((dfaSubName q, c), dfaSubName (nfaMove M q c))] }
            | none => stepSymbols M (eclosureFuel M (fe + 1)) (dfaSubName q) q cs
                { newStates :=
                    st.newStates ++ [(dfaSubName (nfaMove M q c), anyAcc M (nfaMove M q c))],
                  dfaTrans :=
                    st.dfaTrans ++ [((dfaSubName q, c), dfaSubName (nfaMove M q c))],
                  unmarked := (nfaMove M q c, dfaSubName (nfaMove M q c)) :: st.unmarked }) := by
        show (match eclosureFuel M (fe + 1) (nfaMove M q c) with
              | none => none
              | some qc =>
                  if qc = [] then
                    stepSymbols M (eclosureFuel M (fe + 1)) (dfaSubName q) q cs st
                  else
                    match lookupAcc st.newStates (dfaSubName qc) with
                    | some _ => stepSymbols M (eclosureFuel M (fe + 1)) (dfaSubName q) q cs
                        { st with dfaTrans := st.dfaTrans ++ [((dfaSubName q, c), dfaSubName qc)] }
                    | none => stepSymbols M (eclosureFuel M (fe + 1)) (dfaSubName q) q cs
                        { newStates := st.newStates ++ [(dfaSubName qc, anyAcc M qc)],
                          dfaTrans := st.dfaTrans ++ [((dfaSubName q, c), dfaSubName qc)],
                          unmarked := (qc, dfaSubName qc) :: st.unmarked }) = _
        rw [eclosureFuel_eps_free M Hε fe (nfaMove M q c)]
      by_cases hmv : nfaMove M q c = []
      · -- the move is empty: no transition is recorded for this symbol
        rcases ih hndtail st q hq hkn he hu hun hts hkey hnotunm
            (fun c' hc' => hfr c' (List.mem_cons_of_mem _ hc')) with ⟨st', hrun', out⟩
        refine ⟨st', by rw [hrun, if_pos hmv]; exact hrun', ?_⟩
        rcases out.tr_grow with ⟨tradd, htr, htradd⟩
        rcases out.ns_grow with ⟨nsadd, hns⟩
        refine { keys_nodup := out.keys_nodup, entry_ok := out.entry_ok,
                 unm_ok := out.unm_ok, unm_nodup := out.unm_nodup, tr_src := out.tr_src,
                 ns_grow := out.ns_grow, unm_grow := out.unm_grow,
                 tr_grow := ⟨tradd, htr, ?_⟩, new_unm := out.new_unm, tr_in := ?_ }
        · intro e hee
          exact ⟨(htradd e hee).1, List.mem_cons_of_mem _ (htradd e hee).2⟩
        · intro c' hc'
          rcases List.mem_cons.mp hc' with hc' | hc'
          · subst hc'
            rw [htr]
            apply TransSpec_extend (TransSpec_empty hmv (hfr c' (by simp)))
            · intro e hee hk
              have hmemcs : e.1.2 ∈ cs := (htradd e hee).2
              rw [hk.2] at hmemcs
              exact hcnotin hmemcs
            · intro k hk
              rw [hns]
              simp only [List.map_append, List.mem_append]
              exact Or.inl hk
          · exact out.tr_in c' hc'
      · -- the move is non-empty
        have hqc : GoodU M (nfaMove M q c) := goodU_nfaMove Htr hmv
        cases hlook : lookupAcc st.newStates (dfaSubName (nfaMove M q c)) with
        | some b =>
            -- the subset-state already exists: reuse it
            set st₁ : BuildSt α :=
              { st with dfaTrans :=
                  st.dfaTrans ++ [((dfaSubName q, c), dfaSubName (nfaMove M q c))] } with hst₁
            have hkeymem : dfaSubName (nfaMove M q c) ∈ nsKeys st := lookupAcc_some_mem_keys hlook
            have hts₁ : ∀ e ∈ st₁.dfaTrans, e.1.1 ∈ nsKeys st₁ ∧ e.1.1 ∉ unmNames st₁ := by
              intro e hee
              rcases List.mem_append.mp hee with h | h
              · exact hts e h
              · rcases List.mem_singleton.mp h with rfl
                exact ⟨hkey, hnotunm⟩
            have hfr₁ : ∀ c' ∈ cs, lookupTr st₁.dfaTrans (dfaSubName q) c' = none := by
              intro c' hc'
              show lookupTr (st.dfaTrans ++ _) (dfaSubName q) c' = none
              rw [lookupTr_append, hfr c' (List.mem_cons_of_mem _ hc')]
              apply lookupTr_eq_none
              intro e hee hk
              rcases List.mem_singleton.mp hee with rfl
              have hcc : c = c' := hk.2
              exact hcnotin (by rw [hcc]; exact hc')
            rcases ih hndtail st₁ q hq hkn he hu hun hts₁ hkey hnotunm hfr₁ with
              ⟨st', hrun', out⟩
            refine ⟨st', by rw [hrun, if_neg hmv, hlook]; exact hrun', ?_⟩
            rcases out.tr_grow with ⟨tradd, htr, htradd⟩
            rcases out.ns_grow with ⟨nsadd, hns⟩
            have htr' : st'.dfaTrans =
                st.dfaTrans ++ ([((dfaSubName q, c), dfaSubName (nfaMove M q c))] ++ tradd) := by
              rw [← List.append_assoc]
              exact htr
            refine { keys_nodup := out.keys_nodup, entry_ok := out.entry_ok,
                     unm_ok := out.unm_ok, unm_nodup := out.unm_nodup, tr_src := out.tr_src,
                     ns_grow := out.ns_grow, unm_grow := out.unm_grow,
                     tr_grow := ⟨_, htr', ?_⟩, new_unm := out.new_unm, tr_in := ?_ }
            · intro e hee
              rcases List.mem_append.mp hee with h | h
              · rcases List.mem_singleton.mp h with rfl
                exact ⟨rfl, by simp⟩
              · exact ⟨(htradd e h).1, List.mem_cons_of_mem _ (htradd e h).2⟩
            · intro c' hc'
              rcases List.mem_cons.mp hc' with hc' | hc'
              · subst hc'
                have hspec₁ : TransSpec M st₁.dfaTrans st₁.newStates q c' :=
                  TransSpec_new (hfr c' (by simp)) hmv hkeymem
                rw [htr]
                apply TransSpec_extend hspec₁
                · intro e hee hk
                  have hmemcs : e.1.2 ∈ cs := (htradd e hee).2
                  rw [hk.2] at hmemcs
                  exact hcnotin hmemcs
                · intro k hk
                  rw [hns]
                  simp only [List.map_append, List.mem_append]
                  exact Or.inl hk
              · exact out.tr_in c' hc'
        | none =>
            -- fresh subset-state: create it and push it on the worklist
            set qc := nfaMove M q c with hqcdef
            set st₁ : BuildSt α :=
              { newStates := st.newStates ++ [(dfaSubName qc, anyAcc M qc)],
                dfaTrans := st.dfaTrans ++ [((dfaSubName q, c), dfaSubName qc)],
                unmarked := (qc, dfaSubName qc) :: st.unmarked } with hst₁
            have hnewname : dfaSubName qc ∉ nsKeys st := lookupAcc_none_not_mem hlook
            have hkeys₁ : nsKeys st₁ = nsKeys st ++ [dfaSubName qc] := by
              simp [hst₁, nsKeys]
            have hkn₁ : (nsKeys st₁).Nodup := by
              rw [hkeys₁]
              simp only [List.nodup_append, List.nodup_cons, List.not_mem_nil,
                not_false_iff, List.nodup_nil, and_true, true_and]
              constructor
              · exact hkn
              · intro a ha hb
                simp only [List.mem_singleton] at hb
                exact hnewname (hb ▸ ha)
            have he₁ : ∀ e ∈ st₁.newStates,
                ∃ q₂, GoodU M q₂ ∧ e.1 = dfaSubName q₂ ∧ e.2 = anyAcc M q₂ := by
              intro e hee
              rcases List.mem_append.mp hee with h | h
              · exact he e h
              · rcases List.mem_singleton.mp h with rfl
                exact ⟨qc, hqc, rfl, rfl⟩
            have hu₁ : ∀ p ∈ st₁.unmarked,
                GoodU M p.1 ∧ p.2 = dfaSubName p.1 ∧ p.2 ∈ nsKeys st₁ := by
              intro p hp
              rcases List.mem_cons.mp hp with h | h
              · rcases h with rfl
                exact ⟨hqc, rfl, by rw [hkeys₁]; simp⟩
              · obtain ⟨h₁, h₂, h₃⟩ := hu p h
                exact ⟨h₁, h₂, by rw [hkeys₁]; exact List.mem_append.mpr (Or.inl h₃)⟩
            have hunm₁ : unmNames st₁ = dfaSubName qc :: unmNames st := by
              simp [hst₁, unmNames]
            have hun₁ : (unmNames st₁).Nodup := by
              rw [hunm₁, List.nodup_cons]
              constructor
              · intro hmem
                rcases List.mem_map.mp hmem with ⟨p, hp, hpv⟩
                exact hnewname (hpv ▸ (hu p hp).2.2)
              · exact hun
            have hdnotnew : dfaSubName q ≠ dfaSubName qc := by
              intro hcontra
              exact hnewname (hcontra ▸ hkey)
            have hts₁ : ∀ e ∈ st₁.dfaTrans, e.1.1 ∈ nsKeys st₁ ∧ e.1.1 ∉ unmNames st₁ := by
              intro e hee
              rcases List.mem_append.mp hee with h | h
              · obtain ⟨h₁, h₂⟩ := hts e h
                refine ⟨by rw [hkeys₁]; exact List.mem_append.mpr (Or.inl h₁), ?_⟩
                rw [hunm₁]
                intro hmem
                rcases List.mem_cons.mp hmem with h₃ | h₃
                · exact hnewname (h₃ ▸ h₁)
                · exact h₂ h₃
              · rcases List.mem_singleton.mp h with rfl
                refine ⟨by rw [hkeys₁]; exact List.mem_append.mpr (Or.inl hkey), ?_⟩
                rw [hunm₁]
                intro hmem
                rcases List.mem_cons.mp hmem with h₃ | h₃
                · exact hdnotnew h₃
                · exact hnotunm h₃
            have hkey₁ : dfaSubName q ∈ nsKeys st₁ := by
              rw [hkeys₁]; exact List.mem_append.mpr (Or.inl hkey)
            have hnotunm₁ : dfaSubName q ∉ unmNames st₁ := by
              rw [hunm₁]
              intro hmem
              rcases List.mem_cons.mp hmem with h₃ | h₃
              · exact hdnotnew h₃
              · exact hnotunm h₃
            have hfr₁ : ∀ c' ∈ cs, lookupTr st₁.dfaTrans (dfaSubName q) c' = none := by
              intro c' hc'
              show lookupTr (st.dfaTrans ++ _) (dfaSubName q) c' = none
              rw [lookupTr_append, hfr c' (List.mem_cons_of_mem _ hc')]
              apply lookupTr_eq_none
              intro e hee hk
              rcases List.mem_singleton.mp hee with rfl
              have hcc : c = c' := hk.2
              exact hcnotin (by rw [hcc]; exact hc')
            rcases ih hndtail st₁ q hq hkn₁ he₁ hu₁ hun₁ hts₁ hkey₁ hnotunm₁ hfr₁ with
              ⟨st', hrun', out⟩
            refine ⟨st', by rw [hrun, if_neg hmv, hlook]; exact hrun', ?_⟩
            rcases out.tr_grow with ⟨tradd, htr, htradd⟩
            rcases out.ns_grow with ⟨nsadd, hns⟩
            rcases out.unm_grow with ⟨unmadd, hunm, hunmfresh⟩
            have hns' : st'.newStates =
                st.newStates ++ ([(dfaSubName qc, anyAcc M qc)] ++ nsadd) := by
              rw [← List.append_assoc]
              exact hns
            have htr' : st'.dfaTrans =
                st.dfaTrans ++ ([((dfaSubName q, c), dfaSubName qc)] ++ tradd) := by
              rw [← List.append_assoc]
              exact htr
            have hunm' : st'.unmarked = (unmadd ++ [(qc, dfaSubName qc)]) ++ st.unmarked := by
              rw [hunm, hst₁]
              simp
            have hkeymem₁ : dfaSubName qc ∈ nsKeys st₁ := by
              rw [hkeys₁]; simp
            refine { keys_nodup := out.keys_nodup, entry_ok := out.entry_ok,
                     unm_ok := out.unm_ok, unm_nodup := out.unm_nodup, tr_src := out.tr_src,
                     ns_grow := ⟨_, hns'⟩, unm_grow := ⟨_, hunm', ?_⟩,
                     tr_grow := ⟨_, htr', ?_⟩, new_unm := ?_, tr_in := ?_ }
            · intro p hp
              rcases List.mem_append.mp hp with h | h
              · intro hmem
                apply hunmfresh p h
                rw [hkeys₁]
                exact List.mem_append.mpr (Or.inl hmem)
              · rcases List.mem_singleton.mp h with rfl
                exact hnewname
            · intro e hee
              rcases List.mem_append.mp hee with h | h
              · rcases List.mem_singleton.mp h with rfl
                exact ⟨rfl, by simp⟩
              · exact ⟨(htradd e h).1, List.mem_cons_of_mem _ (htradd e h).2⟩
            · intro k hk hknot
              by_cases hk₁ : k ∈ nsKeys st₁
              · have hk2 : k = dfaSubName qc := by
                  rw [hkeys₁] at hk₁
                  rcases List.mem_append.mp hk₁ with h | h
                  · exact absurd h hknot
                  · simpa using h
                subst hk2
                -- the fresh name is on the worklist of st₁, hence of st'
                rw [unmNames, hunm, hst₁]
                simp
              · exact out.new_unm k hk hk₁
            · intro c' hc'
              rcases List.mem_cons.mp hc' with hc' | hc'
              · subst hc'
                have hspec₁ : TransSpec M st₁.dfaTrans st₁.newStates q c' :=
                  TransSpec_new (hfr c' (by simp)) hmv hkeymem₁
                rw [htr]
                apply TransSpec_extend hspec₁
                · intro e hee hk
                  have hmemcs : e.1.2 ∈ cs := (htradd e hee).2
                  rw [hk.2] at hmemcs
                  exact hcnotin hmemcs
                · intro k hk
                  have hkeys' : nsKeys st' = nsKeys st₁ ++ nsadd.map (·.1) := by
                    rw [nsKeys, nsKeys, hns, List.map_append]
                  show k ∈ nsKeys st'
                  rw [hkeys']
                  exact List.mem_append.mpr (Or.inl hk)
              · exact out.tr_in c' hc'

theorem goodU_name_inj {α : Type} {M : NFAModel α} (Hinj : SubNameInj M)
    {q q₂ : List String} (hq : GoodU M q) (hq₂ : GoodU M q₂)
    (hname : dfaSubName q = dfaSubName q₂) : q = q₂ := by
  have h₁ : q ∈ (nsOfList M.states).sublists := List.mem_sublists.mpr
    (ncanon_sublist ncanon_nsOfList hq.2.1 (fun a ha => mem_nsOfList.mpr (hq.2.2 a ha)))
  have h₂ : q₂ ∈ (nsOfList M.states).sublists := List.mem_sublists.mpr
    (ncanon_sublist ncanon_nsOfList hq₂.2.1 (fun a ha => mem_nsOfList.mpr (hq₂.2.2 a ha)))
  exact Hinj q h₁ q₂ h₂ hq.1 hq₂.1 hname

/-- The worklist loop preserves the invariant and, when it terminates, every
created subset-state is fully processed. -/
theorem buildLoop_inv {α : Type} [DecidableEq α] {M : NFAModel α} (fe : Nat)
    (Hε : ∀ n, M.trans n M.emptyChar = [])
    (Htr : ∀ n c t, t ∈ M.trans n c → t ∈ M.states)
    (Hα : M.alphabet.Nodup) (Hinj : SubNameInj M) :
    ∀ (fl : Nat) (st st' : BuildSt α), LoopInv M st →
      buildLoop M (eclosureFuel M (fe + 1)) fl st = some st' →
      st'.unmarked = [] ∧ LoopInv M st' ∧ (∀ k ∈ nsKeys st, k ∈ nsKeys st') := by
  intro fl
  induction fl with
  | zero =>
      intro st st' hInv hrun
      simp only [buildLoop] at hrun
      cases hu : st.unmarked with
      | nil =>
          rw [hu] at hrun
          injection hrun with hrun
          subst hrun
          exact ⟨hu, hInv, fun k hk => hk⟩
      | cons p rest =>
          rw [hu] at hrun
          cases hrun
  | succ fl ih =>
      intro st st' hInv hrun
      simp only [buildLoop] at hrun
      cases hu : st.unmarked with
      | nil =>
          rw [hu] at hrun
          injection hrun with hrun
          subst hrun
          exact ⟨hu, hInv, fun k hk => hk⟩
      | cons p rest =>
          obtain ⟨q, dn⟩ := p
          rw [hu] at hrun
          obtain ⟨hqGood, hdn, hdkey⟩ := hInv.unm_ok (q, dn) (by rw [hu]; simp)
          simp only at hdn
          subst hdn
          have hheadnot : dfaSubName q ∉ rest.map (·.2) := by
            have := hInv.unm_nodup
            rw [unmNames, hu, List.map_cons, List.nodup_cons] at this
            exact this.1
          have hfr : ∀ c ∈ M.alphabet,
              lookupTr st.dfaTrans (dfaSubName q) c = none := by
            intro c _
            apply lookupTr_eq_none
            intro e hee hk
            have := (hInv.tr_src e hee).2
            rw [unmNames, hu] at this
            exact this (by rw [hk.1]; simp)
          have hstep := stepSymbols_spec fe Hε Htr M.alphabet Hα
            { st with unmarked := rest } q hqGood hInv.keys_nodup hInv.entry_ok
            (fun p hp => hInv.unm_ok p (by rw [hu]; exact List.mem_cons_of_mem _ hp))
            (by
              have := hInv.unm_nodup
              rw [unmNames, hu, List.map_cons, List.nodup_cons] at this
              exact this.2)
            (fun e hee => ⟨(hInv.tr_src e hee).1, by
              intro hmem
              apply (hInv.tr_src e hee).2
              rw [unmNames, hu, List.map_cons]
              exact List.mem_cons_of_mem _ hmem⟩)
            hdkey hheadnot hfr
          rcases hstep with ⟨st₁, hrun₁, out⟩
          replace hrun : (match stepSymbols M (eclosureFuel M (fe + 1)) (dfaSubName q) q
              M.alphabet { st with unmarked := rest } with
            | none => none
            | some st₂ => buildLoop M (eclosureFuel M (fe + 1)) fl st₂) = some st' := hrun
          rw [hrun₁] at hrun
          have hInv₁ : LoopInv M st₁ := by
            refine { keys_nodup := out.keys_nodup, entry_ok := out.entry_ok,
                     unm_ok := out.unm_ok, unm_nodup := out.unm_nodup,
                     tr_src := out.tr_src, done_ok := ?_ }
            intro q₂ hq₂ hkey₂ hnot₂ c hc
            by_cases hsame : dfaSubName q₂ = dfaSubName q
            · have hqq : q₂ = q := goodU_name_inj Hinj hq₂ hqGood hsame
              subst hqq
              exact out.tr_in c hc
            · have hkey₂' : dfaSubName q₂ ∈ nsKeys st := by
                by_contra hcon
                exact hnot₂ (out.new_unm _ hkey₂ hcon)
              have hnot₂' : dfaSubName q₂ ∉ unmNames st := by
                rw [unmNames, hu, List.map_cons]
                intro hmem
                rcases List.mem_cons.mp hmem with h | h
                · exact hsame h
                · -- it would still be unmarked in st₁
                  rcases out.unm_grow with ⟨unmadd, hunm, _⟩
                  apply hnot₂
                  rw [unmNames, hunm, List.map_append]
                  exact List.mem_append.mpr (Or.inr h)
              have hdone := hInv.done_ok q₂ hq₂ hkey₂' hnot₂' c hc
              rcases out.tr_grow with ⟨tradd, htr, htradd⟩
              rcases out.ns_grow with ⟨nsadd, hns⟩
              rw [htr]
              apply TransSpec_extend hdone
              · intro e hee hk
                exact hsame (hk.1 ▸ (htradd e hee).1) |>.elim
              · intro k hk
                have hkeys' : nsKeys st₁ = nsKeys st ++ nsadd.map (·.1) := by
                  rw [nsKeys, nsKeys, hns, List.map_append]
                show k ∈ nsKeys st₁
                rw [hkeys']
                exact List.mem_append.mpr (Or.inl hk)
          rcases ih st₁ st' hInv₁ hrun with ⟨hemp, hinv', hmono'⟩
          refine ⟨hemp, hinv', ?_⟩
          intro k hk
          apply hmono'
          rcases out.ns_grow with ⟨nsadd, hns⟩
          have hkeys' : nsKeys st₁ = nsKeys st ++ nsadd.map (·.1) := by
            rw [nsKeys, nsKeys, hns, List.map_append]
          rw [hkeys']
          exact List.mem_append.mpr (Or.inl hk)

/-- Walking the built DFA from the subset-state of `q` computes the classical
subset semantics of `q` (epsilon-free case), and parks the cursor on the
DFA's initial state. -/
theorem walk_spec {α : Type} [DecidableEq α] {M : NFAModel α}
    (Htr : ∀ n c t, t ∈ M.trans n c → t ∈ M.states) (Hinj : SubNameInj M)
    {stf : BuildSt α} (hInv : LoopInv M stf) (hemp : stf.unmarked = [])
    (n₀ : String) :
    ∀ (s : List α), (∀ c ∈ s, c ∈ M.alphabet) → ∀ q, GoodU M q →
      dfaSubName q ∈ nsKeys stf →
      dfaAcceptAux ⟨stf.newStates, stf.dfaTrans, n₀, M.alphabet, n₀⟩ s (dfaSubName q) =
        (subsetAccept M s q, n₀) := by
  intro s
  induction s with
  | nil =>
      intro _ q hq hkey
      rcases lookupAcc_some_of_mem_keys hkey with ⟨b, hb⟩
      rcases hInv.entry_ok _ (lookupAcc_mem hb) with ⟨q₂, hq₂, hname, hval⟩
      have hqq : q = q₂ := goodU_name_inj Hinj hq hq₂ hname
      subst hqq
      show ((DFAModel.accOf _ (dfaSubName q)), n₀) = (anyAcc M q, n₀)
      rw [DFAModel.accOf]
      show ((lookupAcc stf.newStates (dfaSubName q)).getD false, n₀) = _
      rw [hb]
      simp only at hval
      rw [Option.getD_some, ← hval]
  | cons c rest ih =>
      intro hs q hq hkey
      have hc : c ∈ M.alphabet := hs c (by simp)
      have hnotunm : dfaSubName q ∉ unmNames stf := by
        rw [unmNames, hemp]
        simp
      have hdone := hInv.done_ok q hq hkey hnotunm c hc
      show (match DFAModel.transOf _ (dfaSubName q) c with
            | none => (false, n₀)
            | some nxt => dfaAcceptAux _ rest nxt) = (subsetAccept M (c :: rest) q, n₀)
      by_cases hmv : nfaMove M q c = []
      · rw [show DFAModel.transOf
            (⟨stf.newStates, stf.dfaTrans, n₀, M.alphabet, n₀⟩ : DFAModel α)
            (dfaSubName q) c = none from hdone.1 hmv]
        show (false, n₀) = (subsetAccept M rest (nfaMove M q c), n₀)
        rw [hmv, subsetAccept_nil_false]
      · obtain ⟨hlk, hkey₂⟩ := hdone.2 hmv
        rw [show DFAModel.transOf
            (⟨stf.newStates, stf.dfaTrans, n₀, M.alphabet, n₀⟩ : DFAModel α)
            (dfaSubName q) c = some (dfaSubName (nfaMove M q c)) from hlk]
        exact ih (fun c' hc' => hs c' (List.mem_cons_of_mem _ hc'))
          (nfaMove M q c) (goodU_nfaMove Htr hmv) hkey₂

/-- Claim C1 (amended): subset construction preserves the language of an
epsilon-free NFA (with an injective subset naming, e.g. distinct `+`-free
state names): for every sequence over the alphabet, the DFA produced by
`nfa_to_dfa` returns exactly what `NFA.accept` returns (with enough recursion
depth, namely one more than the length of the sequence).  For NFAs *with*
epsilon transitions the unamended claim is false — see the counterexample. -/
theorem nfaToDfa_eps_free_preserves {α : Type} [DecidableEq α] (M : NFAModel α)
    (fe fl : Nat) (d : DFAModel α) (s : List α)
    (Hε : ∀ n, M.trans n M.emptyChar = [])
    (Htr : ∀ n c t, t ∈ M.trans n c → t ∈ M.states)
    (Hin : M.initial ∈ M.states)
    (Hα : M.alphabet.Nodup)
    (Hinj : SubNameInj M)
    (Hs : ∀ c ∈ s, c ∈ M.alphabet)
    (Hbuild : nfaToDfaFuel M fe fl = some d) :
    nfaAcceptFuel M (s.length + 1) s M.initial = some ((DFAModel.accept d s).1) := by
  -- peel the construction apart
  match fe, Hbuild with
  | 0, Hbuild => exact absurd Hbuild (by rw [nfaToDfaFuel]; simp [eclosureFuel])
  | fe + 1, Hbuild =>
    rw [nfaToDfaFuel, eclosureFuel_eps_free M Hε fe [M.initial]] at Hbuild
    set n₀ := dfaSubName [M.initial] with hn₀
    set st₀ : BuildSt α :=
      ⟨[(n₀, anyAcc M [M.initial])], [], [([M.initial], n₀)]⟩ with hst₀
    have hGood₀ : GoodU M [M.initial] := by
      refine ⟨by simp, by simp, ?_⟩
      intro x hx
      rw [List.mem_singleton] at hx
      exact hx ▸ Hin
    have hInv₀ : LoopInv M st₀ := by
      refine { keys_nodup := by simp [hst₀, nsKeys],
               entry_ok := ?_, unm_ok := ?_,
               unm_nodup := by simp [hst₀, unmNames],
               tr_src := by simp [hst₀],
               done_ok := ?_ }
      · intro e hee
        rw [hst₀] at hee
        rcases List.mem_singleton.mp hee with rfl
        exact ⟨[M.initial], hGood₀, rfl, rfl⟩
      · intro p hp
        rw [hst₀] at hp
        rcases List.mem_singleton.mp hp with rfl
        exact ⟨hGood₀, rfl, by simp [hst₀, nsKeys]⟩
      · intro q₂ _ hkey hnot
        exfalso
        apply hnot
        have : nsKeys st₀ = [n₀] := by simp [hst₀, nsKeys]
        rw [this] at hkey
        have : unmNames st₀ = [n₀] := by simp [hst₀, unmNames]
        rw [this]
        exact hkey
    replace Hbuild : (match buildLoop M (eclosureFuel M (fe + 1)) fl st₀ with
        | none => none
        | some stf =>
            some (⟨stf.newStates, stf.dfaTrans, n₀, M.alphabet, n₀⟩ : DFAModel α)) =
        some d := Hbuild
    cases hbl : buildLoop M (eclosureFuel M (fe + 1)) fl st₀ with
    | none =>
        rw [hbl] at Hbuild
        cases Hbuild
    | some stf =>
        rw [hbl] at Hbuild
        injection Hbuild with Hbuild
        rcases buildLoop_inv fe Hε Htr Hα Hinj fl st₀ stf hInv₀ hbl with ⟨hemp, hinvf, hmono⟩
        have hn₀key : n₀ ∈ nsKeys stf := hmono n₀ (by simp [hst₀, nsKeys])
        have hwalk := walk_spec Htr Hinj hinvf hemp n₀ s Hs [M.initial] hGood₀ hn₀key
        have haccept : (DFAModel.accept d s).1 = subsetAccept M s [M.initial] := by
          rw [← Hbuild]
          exact congrArg Prod.fst hwalk
        rw [haccept, subsetAccept_singleton]
        exact nfaAcceptFuel_eps_free Hε s (s.length + 1) M.initial (by omega)

theorem obsEq_refl {α : Type} [DecidableEq α] (g : PyGraph α) : ObsEq g g :=
  ⟨rfl, fun _ _ => rfl⟩

theorem obsEq_trans {α : Type} [DecidableEq α] {g₁ g₂ g₃ : PyGraph α}
    (h₁ : ObsEq g₁ g₂) (h₂ : ObsEq g₂ g₃) : ObsEq g₁ g₃ :=
  ⟨h₂.1.trans h₁.1, fun n k => (h₂.2 n k).trans (h₁.2 n k)⟩

theorem obsVal_cons_ne {α : Type} [DecidableEq α] {m : String} {dct : PyDict α}
    {g : PyGraph α} {n : String} (h : ¬m = n) (k : α) :
    obsVal ((m, dct) :: g) n k = obsVal g n k := by
  rw [obsVal, obsVal, graphFind, if_neg h]

theorem obsVal_cons_eq {α : Type} [DecidableEq α] {m : String} {dct : PyDict α}
    {g : PyGraph α} {n : String} (h : m = n) (k : α) :
    obsVal ((m, dct) :: g) n k = (dictGet dct k).getD [] := by
  rw [obsVal, graphFind, if_pos h]

theorem dictGet_append_single {α : Type} [DecidableEq α] (d : PyDict α) (k a : α) :
    dictGet (d ++ [(k, [])]) a =
      match dictGet d a with
      | some v => some v
      | none => if k = a then some [] else none := by
  induction d with
  | nil => simp [dictGet]
  | cons e t ih =>
      obtain ⟨k', v'⟩ := e
      by_cases h : k' = a
      · simp [dictGet, h]
      · simp only [List.cons_append, dictGet, if_neg h]
        exact ih

/-- A defaultdict read only mutates by inserting an empty default, so the
graph stays observationally equal, and the value read is the observable one. -/
theorem graphDD_obs {α : Type} [DecidableEq α] :
    ∀ (g : PyGraph α) (n : String) (k : α),
      ObsEq g (graphDD g n k).1 ∧ (graphDD g n k).2 = obsVal g n k := by
  intro g
  induction g with
  | nil =>
      intro n k
      exact ⟨obsEq_refl [], by simp [graphDD, obsVal, graphFind]⟩
  | cons e rest ih =>
      intro n k
      obtain ⟨m, dct⟩ := e
      by_cases hm : m = n
      · rw [graphDD, if_pos hm]
        cases hdg : dictGet dct k with
        | some v =>
            constructor
            · rw [show dictSetDefault dct k = (dct, v) from by rw [dictSetDefault, hdg]]
              exact obsEq_refl _
            · rw [show dictSetDefault dct k = (dct, v) from by rw [dictSetDefault, hdg]]
              show v = obsVal ((m, dct) :: rest) n k
              rw [obsVal_cons_eq hm, hdg]
              rfl
        | none =>
            have hsd : dictSetDefault dct k = (dct ++ [(k, [])], []) := by
              rw [dictSetDefault, hdg]
            rw [hsd]
            constructor
            · constructor
              · rfl
              · intro n' k'
                rw [obsVal, obsVal, graphFind, graphFind]
                by_cases hm' : m = n'
                · rw [if_pos hm', if_pos hm']
                  show ((dictGet (dct ++ [(k, [])]) k').getD []) = (dictGet dct k').getD []
                  rw [dictGet_append_single]
                  cases hdg' : dictGet dct k' with
                  | some v => rfl
                  | none =>
                      by_cases hk : k = k'
                      · rw [if_pos hk]
                        rfl
                      · rw [if_neg hk]
                · rw [if_neg hm', if_neg hm']
            · show ([] : List String) = obsVal ((m, dct) :: rest) n k
              rw [obsVal_cons_eq hm, hdg]
              rfl
      · rw [graphDD, if_neg hm]
        obtain ⟨ih₁, ih₂⟩ := ih n k
        constructor
        · constructor
          · show m :: graphKeys (graphDD rest n k).1 = m :: graphKeys rest
            rw [ih₁.1]
          · intro n' k'
            by_cases hm' : m = n'
            · rw [obsVal_cons_eq hm', obsVal_cons_eq hm']
            · rw [obsVal_cons_ne hm', obsVal_cons_ne hm']
              exact ih₁.2 n' k'
        · show (graphDD rest n k).2 = obsVal ((m, dct) :: rest) n k
          rw [ih₂, obsVal, obsVal, graphFind, if_neg hm]

theorem foldMove_obs {α : Type} [DecidableEq α] (c : α) :
    ∀ (sub : List String) (p : PyGraph α × List String),
      ObsEq p.1 (sub.foldl (fun p n =>
        ((graphDD p.1 n c).1, nsAddAll p.2 (graphDD p.1 n c).2)) p).1 := by
  intro sub
  induction sub with
  | nil => intro p; exact obsEq_refl _
  | cons n ns ih =>
      intro p
      rw [List.foldl_cons]
      exact obsEq_trans (graphDD_obs p.1 n c).1 (ih _)

theorem nfaMoveSt_obs {α : Type} [DecidableEq α] (g : PyGraph α) (sub : List String)
    (c : α) : ObsEq g (nfaMoveSt g sub c).1 := foldMove_obs c sub (g, [])

theorem eclosInnerSt_obs {α : Type} [DecidableEq α]
    {recur : PyGraph α → List String → Option (PyGraph α × List String)}
    (hrec : ∀ g sub g₁ r, recur g sub = some (g₁, r) → ObsEq g g₁) :
    ∀ (ts : List String) (g : PyGraph α) (acc : List String) (g₂ : PyGraph α)
      (r : List String), eclosInnerSt recur ts g acc = some (g₂, r) → ObsEq g g₂ := by
  intro ts
  induction ts with
  | nil =>
      intro g acc g₂ r h
      rw [eclosInnerSt] at h
      injection h with h
      injection h with h₁ h₂
      exact h₁ ▸ obsEq_refl g
  | cons t ts ih =>
      intro g acc g₂ r h
      rw [eclosInnerSt] at h
      cases hr : recur g [t] with
      | none => rw [hr] at h; cases h
      | some p =>
          obtain ⟨g₁, e⟩ := p
          rw [hr] at h
          exact obsEq_trans (hrec g [t] g₁ e hr) (ih g₁ _ g₂ r h)

theorem eclosOuterSt_obs {α : Type} [DecidableEq α] (ec : α)
    {recur : PyGraph α → List String → Option (PyGraph α × List String)}
    (hrec : ∀ g sub g₁ r, recur g sub = some (g₁, r) → ObsEq g g₁) :
    ∀ (l : List String) (g : PyGraph α) (acc : List String) (g₂ : PyGraph α)
      (r : List String), eclosOuterSt ec recur l g acc = some (g₂, r) → ObsEq g g₂ := by
  intro l
  induction l with
  | nil =>
      intro g acc g₂ r h
      rw [eclosOuterSt] at h
      injection h with h
      injection h with h₁ h₂
      exact h₁ ▸ obsEq_refl g
  | cons s rest ih =>
      intro g acc g₂ r h
      rw [eclosOuterSt] at h
      cases hin : eclosInnerSt recur (graphDD g s ec).2 (graphDD g s ec).1 acc with
      | none => rw [hin] at h; cases h
      | some p =>
          obtain ⟨g₁, acc₁⟩ := p
          rw [hin] at h
          have h₁ : ObsEq g (graphDD g s ec).1 := (graphDD_obs g s ec).1
          have h₂ : ObsEq (graphDD g s ec).1 g₁ :=
            eclosInnerSt_obs hrec _ _ _ _ _ hin
          exact obsEq_trans (obsEq_trans h₁ h₂) (ih g₁ _ g₂ r h)

theorem eclosureFuelSt_obs {α : Type} [DecidableEq α] (ec : α) :
    ∀ (f : Nat) (g : PyGraph α) (sub : List String) (g₂ : PyGraph α) (r : List String),
      eclosureFuelSt ec f g sub = some (g₂, r) → ObsEq g g₂ := by
  intro f
  induction f with
  | zero => intro g sub g₂ r h; cases h
  | succ f ih =>
      intro g sub g₂ r h
      exact eclosOuterSt_obs ec (fun g' sub' g₁ r' h' => ih g' sub' g₁ r' h') sub g sub g₂ r h

theorem stepSymbolsSt_obs {α : Type} [DecidableEq α]
    {ecl : PyGraph α → List String → Option (PyGraph α × List String)}
    (hecl : ∀ g sub g₁ r, ecl g sub = some (g₁, r) → ObsEq g g₁)
    (N : NFAStateful α) (dname : String) (q : List String) :
    ∀ (cs : List α) (g : PyGraph α) (st : BuildSt α) (g₂ : PyGraph α) (st₂ : BuildSt α),
      stepSymbolsSt ecl N dname q cs g st = some (g₂, st₂) → ObsEq g g₂ := by
  intro cs
  induction cs with
  | nil =>
      intro g st g₂ st₂ h
      rw [stepSymbolsSt] at h
      injection h with h
      injection h with h₁ h₂
      exact h₁ ▸ obsEq_refl g
  | cons c cs ih =>
      intro g st g₂ st₂ h
      rw [stepSymbolsSt] at h
      cases hec : ecl (nfaMoveSt g q c).1 (nfaMoveSt g q c).2 with
      | none => rw [hec] at h; cases h
      | some p =>
          obtain ⟨g₁, qc⟩ := p
          rw [hec] at h
          replace h : (if qc = [] then stepSymbolsSt ecl N dname q cs g₁ st
              else match lookupAcc st.newStates (dfaSubName qc) with
              | some _ => stepSymbolsSt ecl N dname q cs g₁
                  { st with dfaTrans := st.dfaTrans ++ [((dname, c), dfaSubName qc)] }
              | none => stepSymbolsSt ecl N dname q cs g₁
                  { newStates := st.newStates ++ [(dfaSubName qc, qc.any N.acc)],
                    dfaTrans := st.dfaTrans ++ [((dname, c), dfaSubName qc)],
                    unmarked := (qc, dfaSubName qc) :: st.unmarked }) =
              some (g₂, st₂) := h
          have hObs : ObsEq g g₁ :=
            obsEq_trans (nfaMoveSt_obs g q c) (hecl _ _ _ _ hec)
          by_cases hqc : qc = []
          · rw [if_pos hqc] at h
            exact obsEq_trans hObs (ih g₁ _ g₂ st₂ h)
          · rw [if_neg hqc] at h
            cases hlk : lookupAcc st.newStates (dfaSubName qc) with
            | some b =>
                rw [hlk] at h
                exact obsEq_trans hObs (ih g₁ _ g₂ st₂ h)
            | none =>
                rw [hlk] at h
                exact obsEq_trans hObs (ih g₁ _ g₂ st₂ h)

theorem buildLoopSt_obs {α : Type} [DecidableEq α]
    {ecl : PyGraph α → List String → Option (PyGraph α × List String)}
    (hecl : ∀ g sub g₁ r, ecl g sub = some (g₁, r) → ObsEq g g₁)
    (N : NFAStateful α) :
    ∀ (fl : Nat) (g : PyGraph α) (st : BuildSt α) (g₂ : PyGraph α) (st₂ : BuildSt α),
      buildLoopSt ecl N fl g st = some (g₂, st₂) → ObsEq g g₂ := by
  intro fl
  induction fl with
  | zero =>
      intro g st g₂ st₂ h
      simp only [buildLoopSt] at h
      cases hu : st.unmarked with
      | nil =>
          rw [hu] at h
          injection h with h
          injection h with h₁ h₂
          exact h₁ ▸ obsEq_refl g
      | cons p rest => rw [hu] at h; cases h
  | succ fl ih =>
      intro g st g₂ st₂ h
      simp only [buildLoopSt] at h
      cases hu : st.unmarked with
      | nil =>
          rw [hu] at h
          injection h with h
          injection h with h₁ h₂
          exact h₁ ▸ obsEq_refl g
      | cons p rest =>
          obtain ⟨q, dname⟩ := p
          rw [hu] at h
          replace h : (match stepSymbolsSt ecl N dname q N.alphabet g
              { st with unmarked := rest } with
            | none => none
            | some (g₁, st₁) => buildLoopSt ecl N fl g₁ st₁) = some (g₂, st₂) := h
          cases hss : stepSymbolsSt ecl N dname q N.alphabet g { st with unmarked := rest } with
          | none => rw [hss] at h; cases h
          | some p₁ =>
              obtain ⟨g₁, st₁⟩ := p₁
              rw [hss] at h
              exact obsEq_trans (stepSymbolsSt_obs hecl N dname q _ g _ g₁ st₁ hss)
                (ih g₁ st₁ g₂ st₂ h)

/-- Claim C5 (amended): the determinizer does not change which transitions
the input NFA has: the state set is unchanged and every `transitions[symbol]`
set reads the same before and after — the only effect of running it on the
input is that `defaultdict` lookups insert empty-set entries for previously
missing keys (so the literal key sets of the dicts do grow: see the
counterexample).  The Completer's branches both start from a deep copy and
read only plain dicts, so it leaves its input unchanged (it is a pure
function of its input in this model). -/
theorem nfaToDfaSt_preserves_observations {α : Type} [DecidableEq α]
    (N : NFAStateful α) (fe fl : Nat) (d : DFAModel α) (g₂ : PyGraph α)
    (h : nfaToDfaSt N fe fl = some (d, g₂)) :
    graphKeys g₂ = graphKeys N.graph ∧ ∀ n k, obsVal g₂ n k = obsVal N.graph n k := by
  rw [nfaToDfaSt] at h
  cases hec : eclosureFuelSt N.emptyChar fe N.graph [N.initial] with
  | none => rw [hec] at h; cases h
  | some p =>
      obtain ⟨g₁, q₀⟩ := p
      rw [hec] at h
      replace h : (match buildLoopSt (eclosureFuelSt N.emptyChar fe) N fl g₁
          ⟨[(dfaSubName q₀, q₀.any N.acc)], [], [(q₀, dfaSubName q₀)]⟩ with
        | none => none
        | some (g₃, stf) =>
            some ((⟨stf.newStates, stf.dfaTrans, dfaSubName q₀, N.alphabet,
              dfaSubName q₀⟩ : DFAModel α), g₃)) = some (d, g₂) := h
      cases hbl : buildLoopSt (eclosureFuelSt N.emptyChar fe) N fl g₁
          ⟨[(dfaSubName q₀, q₀.any N.acc)], [], [(q₀, dfaSubName q₀)]⟩ with
      | none => rw [hbl] at h; cases h
      | some p₁ =>
          obtain ⟨g₃, stf⟩ := p₁
          rw [hbl] at h
          injection h with h
          have hg : g₃ = g₂ := congrArg Prod.snd h
          subst hg
          have h₁ : ObsEq N.graph g₁ :=
            eclosureFuelSt_obs N.emptyChar fe N.graph [N.initial] g₁ q₀ hec
          have h₂ : ObsEq g₁ g₃ :=
            buildLoopSt_obs (fun g' sub' gq r' h' =>
              eclosureFuelSt_obs N.emptyChar fe g' sub' gq r' h') N fl g₁ _ g₃ stf hbl
          exact obsEq_trans h₁ h₂

/-! ## Claim theorems -/

/-- Claim C1, counterexample: determinization does not preserve the
language computed by `NFA.accept`.  On the NFA `p --ε--> q` (`q` accepting)
the empty sequence is rejected by `NFA.accept` — the code returns
`node.accepting` as soon as the sequence is empty, without following epsilon
moves — but the DFA built by `nfa_to_dfa` starts in the epsilon closure
`{p, q}`, which is accepting. -/
theorem nfaToDfa_empty_seq_counterexample :
    nfaAcceptFuel epsAccNFA 5 [] epsAccNFA.initial = some false ∧
    nfaToDfaFuel epsAccNFA 2 2 =
      some ⟨[("p+q", true)], [], "p+q", [0], "p+q"⟩ ∧
    ((⟨[("p+q", true)], [], "p+q", [0], "p+q"⟩ : DFAModel Nat).accept []).1 = true := by
  refine ⟨rfl, by decide, rfl⟩

/-- Claim C2: `NFA.accept` is claimed to terminate on every input for every
finite NFA graph; but the code's recursive search has no visited set, so on
the one-state NFA with an epsilon self-loop and the nonempty input `[0]` no
recursion depth suffices — Python recurses forever. -/
theorem nfaAccept_eps_cycle_diverges :
    ∀ fuel, (epsLoopNFA.acceptRun fuel [0]).1 = none :=
  fun fuel => epsLoopNFA_accept_diverges fuel

/-- Claim C3: determinization is claimed to terminate on every finite NFA
graph including epsilon cycles; but `nfa_eclosure` recurses into the closure
of each epsilon target with no visited set, so on the epsilon self-loop NFA
both the closure computation and `nfa_to_dfa` (whose first step is that
closure) run forever. -/
theorem determinization_eps_cycle_diverges :
    ∀ fe fl, eclosureFuel epsLoopNFA fe ["p"] = none ∧
      nfaToDfaFuel epsLoopNFA fe fl = none :=
  fun fe fl => ⟨epsLoopNFA_eclosure_diverges fe, epsLoopNFA_toDfa_diverges fe fl⟩

/-- Claim C4: the Mealy persistence round trip loses every output function.
`MealyMachine.load` binds `output_fun = exec(source)`, and `exec` returns
`None`; so the reloaded machine is the same graph with no output functions,
and its `forward` outputs `None` where the original machine produced
`"Normal operation"`. -/
theorem mealy_roundtrip_loses_outputs :
    mealyLoad (mealySave mealyExample) = some mealyExampleReloaded ∧
    (mealyForward mealyExample "a").map Prod.fst = some (some "Normal operation") ∧
    (mealyForward mealyExampleReloaded "a").map Prod.fst = some none :=
  ⟨rfl, rfl, rfl⟩

/-- Claim C5, counterexample: `nfa_to_dfa` mutates its input.  Reading the
`defaultdict` transition tables through `nfa_move`/`nfa_eclosure` inserts
empty-set entries for the missing keys, so after determinization the input
NFA's transition dicts have grown. -/
theorem nfaToDfa_mutates_input :
    (nfaToDfaSt statefulExample 3 4).map Prod.snd = some statefulExampleMutated ∧
    statefulExampleMutated ≠ statefulExample.graph := by
  exact ⟨by decide, by decide⟩

/-- Claim C6: `complete_dfa` always yields a complete DFA accepting the same
language.  The sink name `q'` is assumed fresh (the model identifies states
by name, and the spec's data model requires unique names in a graph). -/
theorem completeDfa_complete_and_preserves {α : Type} [DecidableEq α]
    (d : DFAModel α) (s : List α) (hf : sinkName ∉ d.names) :
    ((completeDfa d).accept s).1 = (d.accept s).1 ∧
      (completeDfa d).completeB = true := by
  have hfr := sinkFresh_of_names hf
  by_cases hc : d.completeB = true
  · rw [completeDfa, if_pos hc]
    exact ⟨rfl, hc⟩
  · rw [completeDfa, if_neg hc]
    constructor
    · show (dfaAcceptAux (extDfa d) s (extDfa d).current).1 =
        (dfaAcceptAux d s d.current).1
      exact extDfa_walk_sim hfr s d.current hfr.cur
    · exact extDfa_completeB hfr

/-- Witness for claim C6 at a concrete incomplete DFA and sequence. -/
theorem completeDfa_complete_and_preserves_witness :
    sinkName ∉ incompleteDfa.names ∧
    ((completeDfa incompleteDfa).accept [1, 0]).1 = (incompleteDfa.accept [1, 0]).1 ∧
    (completeDfa incompleteDfa).completeB = true :=
  ⟨by decide, completeDfa_complete_and_preserves incompleteDfa [1, 0] (by decide)⟩

/-- Claim C7: `DFA.accept` rejects (without propagating the lookup failure)
whenever the walk reaches a position whose symbol is missing from the current
state's table, and every `accept` call leaves the cursor on the initial
state. -/
theorem dfa_accept_missing_rejects_and_resets {α : Type} [DecidableEq α]
    (d : DFAModel α) (s : List α) :
    (hitsMissing d s d.current = true → (d.accept s).1 = false) ∧
    (d.accept s).2.current = d.initial := by
  constructor
  · intro h
    show (dfaAcceptAux d s d.current).1 = false
    exact dfaAcceptAux_missing_false d s d.current h
  · show (dfaAcceptAux d s d.current).2 = d.initial
    exact dfaAcceptAux_cursor d s d.current

/-- Witness for claim C7: `"aa"` hits a missing symbol in the `ab*ba` DFA. -/
theorem dfa_accept_missing_rejects_and_resets_witness :
    hitsMissing abbaDfa ["a", "a"] abbaDfa.current = true ∧
    (abbaDfa.accept ["a", "a"]).1 = false ∧
    (abbaDfa.accept ["a", "a"]).2.current = abbaDfa.initial := by
  refine ⟨by decide, ?_, (dfa_accept_missing_rejects_and_resets abbaDfa ["a", "a"]).2⟩
  exact (dfa_accept_missing_rejects_and_resets abbaDfa ["a", "a"]).1 (by decide)

/-- Claim C8, counterexample: two state objects with the same name (same
hash) but different `accepting` flags are *not* equal — the dataclass
generates `__eq__` over all fields, so equality is not defined solely by the
name. -/
theorem state_eq_not_by_name_counterexample :
    snapA.name = snapB.name ∧ pyStateHashKey snapA = pyStateHashKey snapB ∧
    pyStateEq snapA snapB = false :=
  ⟨rfl, rfl, by decide⟩

/-- Claim C8 (amended): the hash of a state is determined by the name alone,
and equal states have equal names; but equality itself is the dataclass
field-tuple comparison (name, transitions, initial, accepting). -/
theorem state_eq_fields_hash_by_name {α : Type} [DecidableEq α] (a b : PyStateSnap α) :
    (pyStateEq a b = true ↔
      a.name = b.name ∧ a.transitions = b.transitions ∧ a.initial = b.initial ∧
        a.accepting = b.accepting) ∧
    (pyStateHashKey a = pyStateHashKey b ↔ a.name = b.name) ∧
    (pyStateEq a b = true → pyStateHashKey a = pyStateHashKey b) := by
  have h₁ : pyStateEq a b = true ↔
      a.name = b.name ∧ a.transitions = b.transitions ∧ a.initial = b.initial ∧
        a.accepting = b.accepting := by
    rw [pyStateEq]
    simp [Bool.and_eq_true, decide_eq_true_eq, and_assoc]
  refine ⟨h₁, Iff.rfl, fun h => ?_⟩
  exact (h₁.mp h).1

/-- Witness for claim C8 (amended). -/
theorem state_eq_fields_hash_by_name_witness :
    pyStateEq snapA snapA = true ∧ pyStateHashKey snapA = pyStateHashKey snapA :=
  ⟨(state_eq_fields_hash_by_name snapA snapA).1.mpr ⟨rfl, rfl, rfl, rfl⟩,
   (state_eq_fields_hash_by_name snapA snapA).2.2 (by decide)⟩

theorem orFold_congr {f f₂ : String → Option Bool} (h : ∀ t, f t = f₂ t) :
    ∀ (l : List String) (r : Bool), orFold f l r = orFold f₂ l r := by
  intro l
  induction l with
  | nil => intro r; rfl
  | cons t ts ih =>
      intro r
      rw [orFold, orFold]
      cases r with
      | true => simp only [if_pos]; exact ih true
      | false =>
          simp only [if_neg (by simp : ¬(false = true))]
          rw [h t]
          cases f₂ t with
          | none => rfl
          | some b => exact ih b

/-- `NFA._accept` never reads the cursor, so its verdict is unchanged by it. -/
theorem nfaAcceptFuel_current_irrel {α : Type} (M : NFAModel α) (c : String) :
    ∀ (fuel : Nat) (s : List α) (n : String),
      nfaAcceptFuel { M with current := c } fuel s n = nfaAcceptFuel M fuel s n := by
  intro fuel
  induction fuel with
  | zero => intro s n; rfl
  | succ f ih =>
      intro s n
      cases s with
      | nil => rfl
      | cons x rest =>
          show (match orFold (fun t => nfaAcceptFuel { M with current := c } f rest t)
                  (M.trans n x) false with
                | none => none
                | some r₁ => orFold
                    (fun t => nfaAcceptFuel { M with current := c } f (x :: rest) t)
                    (M.trans n M.emptyChar) r₁) =
              (match orFold (fun t => nfaAcceptFuel M f rest t) (M.trans n x) false with
                | none => none
                | some r₁ => orFold (fun t => nfaAcceptFuel M f (x :: rest) t)
                    (M.trans n M.emptyChar) r₁)
          rw [orFold_congr (fun t => ih rest t) (M.trans n x) false]
          cases orFold (fun t => nfaAcceptFuel M f rest t) (M.trans n x) false with
          | none => rfl
          | some r₁ => exact orFold_congr (fun t => ih (x :: rest) t) (M.trans n M.emptyChar) r₁

/-- Claim C9: the NFA cursor is inert — `accept` returns the machine
unchanged, repeated `accept` calls never move the cursor, the verdict does
not depend on the cursor (the search starts at `initial`), and construction
sets the cursor to the initial state. -/
theorem nfa_cursor_inert {α : Type} [DecidableEq α] :
    (∀ (M : NFAModel α) (fuel : Nat) (s : List α), (M.acceptRun fuel s).2 = M) ∧
    (∀ (M : NFAModel α) (fuel : Nat) (ss : List (List α)),
      (M.acceptMany fuel ss).current = M.current) ∧
    (∀ (M : NFAModel α) (fuel : Nat) (s : List α) (c₁ c₂ : String),
      (({ M with current := c₁ } : NFAModel α).acceptRun fuel s).1 =
        (({ M with current := c₂ } : NFAModel α).acceptRun fuel s).1) ∧
    (∀ (sts : List String) (ac : String → Bool) (tr : String → α → List String)
      (ec : α) (ini : String) (alph : List α) (m : NFAModel α),
      NFAModel.init sts ac tr ec ini alph = some m → m.current = m.initial) := by
  refine ⟨fun M fuel s => rfl, ?_, ?_, ?_⟩
  · intro M fuel ss
    induction ss with
    | nil => rfl
    | cons s ss ih => exact ih
  · intro M fuel s c₁ c₂
    show nfaAcceptFuel { M with current := c₁ } fuel s M.initial =
      nfaAcceptFuel { M with current := c₂ } fuel s M.initial
    rw [nfaAcceptFuel_current_irrel M c₁, nfaAcceptFuel_current_irrel M c₂]
  · intro sts ac tr ec ini alph m h
    rw [NFAModel.init] at h
    by_cases hmem : ec ∈ alph
    · rw [if_pos hmem] at h
      cases h
    · rw [if_neg hmem] at h
      injection h with h
      rw [← h]

/-- Witness for claim C9 at concrete machines. -/
theorem nfa_cursor_inert_witness :
    (epsLoopNFA.acceptRun 3 [0]).2 = epsLoopNFA ∧
    NFAModel.init ["p"] (fun _ => false) (fun _ _ => ([] : List String)) 9 "p" [0] =
      some initExample ∧
    initExample.current = initExample.initial := by
  refine ⟨(nfa_cursor_inert (α := Nat)).1 epsLoopNFA 3 [0], rfl, ?_⟩
  exact (nfa_cursor_inert (α := Nat)).2.2.2 ["p"] (fun _ => false) (fun _ _ => [])
    9 "p" [0] initExample rfl

/-- Claim C10: `DFA.accept` starts its walk at the *cursor*, not at the
initial state: after `process("a")` the `ab*ba` machine accepts `"ba"`, while
a fresh machine rejects it; and in either case the cursor is back on the
initial state afterwards (in fact after every `accept`). -/
theorem dfa_accept_starts_at_cursor :
    abbaDfa.process "a" = some abbaAfterA ∧
    (abbaAfterA.accept ["b", "a"]).1 = true ∧
    (abbaDfa.accept ["b", "a"]).1 = false ∧
    (abbaAfterA.accept ["b", "a"]).2.current = abbaDfa.initial ∧
    (abbaDfa.accept ["b", "a"]).2.current = abbaDfa.initial ∧
    ∀ (α : Type) (_ : DecidableEq α) (d : DFAModel α) (s : List α),
      (DFAModel.accept d s).2.current = d.initial := by
  refine ⟨by decide, by decide, by decide, by decide, by decide, ?_⟩
  intro α inst d s
  exact dfaAcceptAux_cursor d s d.current

/-- Witness for claim C1 (amended): the `test_simple_nfa` machine, its built
DFA, and the accepted sequence `[1,0,1,1]`. -/
theorem nfaToDfa_eps_free_preserves_witness :
    nfaAcceptFuel simpleNfa ([1, 0, 1, 1].length + 1) [1, 0, 1, 1] simpleNfa.initial =
      some ((DFAModel.accept simpleDfa [1, 0, 1, 1]).1) :=
  nfaToDfa_eps_free_preserves simpleNfa 1 5 simpleDfa [1, 0, 1, 1]
    (fun _ => rfl)
    (by
      intro n c t ht
      show t ∈ ["p", "q"]
      by_cases hc0 : c = 0
      · subst hc0
        by_cases hn : n = "p"
        · rw [show simpleNfa.trans n 0 = ["p"] from by rw [simpleNfa]; simp [hn]] at ht
          rw [List.mem_singleton] at ht
          simp [ht]
        · rw [show simpleNfa.trans n 0 = [] from by rw [simpleNfa]; simp [hn]] at ht
          simp at ht
      · by_cases hc1 : c = 1
        · subst hc1
          by_cases hn : n = "p"
          · rw [show simpleNfa.trans n 1 = ["p", "q"] from by
              rw [simpleNfa]; simp [hn]] at ht
            exact ht
          · rw [show simpleNfa.trans n 1 = [] from by rw [simpleNfa]; simp [hn]] at ht
            simp at ht
        · rw [show simpleNfa.trans n c = [] from by rw [simpleNfa]; simp [hc0, hc1]] at ht
          simp at ht)
    (by decide) (by decide) (by decide) (by decide) (by decide)

/-- Witness for claim C5 (amended): on the concrete stateful NFA the
determinizer preserves the state list and every observable transition set. -/
theorem nfaToDfaSt_preserves_observations_witness :
    graphKeys statefulExampleMutated = graphKeys statefulExample.graph ∧
    obsVal statefulExampleMutated "p" 1 = obsVal statefulExample.graph "p" 1 ∧
    obsVal statefulExampleMutated "q" 0 = obsVal statefulExample.graph "q" 0 := by
  have h := nfaToDfaSt_preserves_observations statefulExample 3 4 statefulExampleDfa
    statefulExampleMutated (by decide)
  exact ⟨h.1, h.2 "p" 1, h.2 "q" 0⟩

end FsmLib
